import Mathlib

/-!
# Verification of the rs-simple-fft core

Shallow embedding of the rs-simple-fft repository (radix-2 DIT FFT over
floating-point and fixed-point complex numbers) and proofs deciding the
specification claims.

Machine integers (`i32`, `i64`) are embedded as `ℤ` with explicit
two's-complement wrap-around (`wrap32`) at every point where the Rust code
narrows to 32 bits or can overflow (the crate documents overflow as silent
wrap).  Arithmetic right shift is floor division by a power of two, which on
`ℤ` is `/` (Euclidean division, floor for positive divisors).  `f32`/`f64`
values in the floating-point engine are idealised as exact rationals `ℚ`.
-/

namespace SimpleFft

/-- Two's-complement wrap-around into the signed 32-bit range
`[-2^31, 2^31)`; the semantics of Rust's `as i32` narrowing and of wrapping
integer overflow. -/
def wrap32 (x : ℤ) : ℤ := (x + 2 ^ 31) % 2 ^ 32 - 2 ^ 31

/-- Arithmetic right shift of a signed value: floor division by `2^k`
(Rust `>>` on `i32`/`i64`). -/
def sshr (x : ℤ) (k : ℕ) : ℤ := x / 2 ^ k

/-- Rust `i32::saturating_neg`: negation, except that `i32::MIN` saturates
to `i32::MAX` (used by `ComplexFixed::conj`, src/fixed/types/fixed_complex.rs). -/
def satNeg (x : ℤ) : ℤ := if x = -2 ^ 31 then 2 ^ 31 - 1 else -x

/-- Rust `i32::wrapping_neg`: two's-complement negation (used by the
rotate-by-i step of the real-FFT unweave, src/fixed/real.rs). -/
def wrapNeg (x : ℤ) : ℤ := wrap32 (-x)

/-- `Fixed::<FRAC>::convert::<TO_FRAC>` (src/fixed/types/fixed.rs lines 45-54):
widening shifts left (Rust `<<` silently drops overflowing bits, hence
`wrap32`), narrowing (or equal widths) shifts right arithmetically. -/
def fxConvert (f tof : ℕ) (x : ℤ) : ℤ :=
  if f < tof then wrap32 (x * 2 ^ (tof - f)) else sshr x (f - tof)

/-- `Add<Fixed<F2>> for Fixed<F1>` (src/fixed/types/fixed.rs lines 58-67):
the right operand is rescaled to `F1` via `convert`, then the raw stores are
added (`i32` addition, wrapping). -/
def fxAdd (f1 f2 : ℕ) (a b : ℤ) : ℤ := wrap32 (a + fxConvert f2 f1 b)

/-- `Sub<Fixed<F2>> for Fixed<F1>` (src/fixed/types/fixed.rs lines 144-152). -/
def fxSub (f1 f2 : ℕ) (a b : ℤ) : ℤ := wrap32 (a - fxConvert f2 f1 b)

/-- `Mul<Fixed<F2>> for Fixed<F1>` (src/fixed/types/fixed.rs lines 84-104):
widen both stores to `i64`, multiply, if `F2 > 0` add `2^(F2-1)` and shift
right by `F2`, then narrow back to `i32` (`as i32` wraps). -/
def fxMul (f2 : ℕ) (a b : ℤ) : ℤ :=
  wrap32 (if 0 < f2 then sshr (a * b + 2 ^ (f2 - 1)) f2 else a * b)

/-- `Fixed::scale_half` (src/fixed/types/fixed.rs lines 40-42): arithmetic
right shift by one. -/
def fxHalf (x : ℤ) : ℤ := sshr x 1

/-- The real value represented by a fixed-point store with `f` fractional
bits: `store / 2^f`. -/
def fxVal (f : ℕ) (x : ℤ) : ℚ := (x : ℚ) / 2 ^ f

/-- `ComplexFixed<FRAC>` (src/fixed/types/fixed_complex.rs): a pair of
fixed-point stores. -/
structure CFix where
  re : ℤ
  im : ℤ
deriving DecidableEq, Repr

/-- `ComplexFixed::conj`: negate the imaginary store with *saturating*
negation (src/fixed/types/fixed_complex.rs lines 16-21). -/
def cfxConj (z : CFix) : CFix := ⟨z.re, satNeg z.im⟩

/-- `ComplexFixed::scale_half` (src/fixed/types/fixed_complex.rs lines 26-31):
shift both raw stores right by one. -/
def cfxScaleHalf (z : CFix) : CFix := ⟨fxHalf z.re, fxHalf z.im⟩

/-- `Add<ComplexFixed<F2>> for ComplexFixed<F1>`: component-wise fixed add. -/
def cfxAdd (f1 f2 : ℕ) (a b : CFix) : CFix :=
  ⟨fxAdd f1 f2 a.re b.re, fxAdd f1 f2 a.im b.im⟩

/-- `Sub<ComplexFixed<F2>> for ComplexFixed<F1>`: component-wise fixed sub. -/
def cfxSub (f1 f2 : ℕ) (a b : CFix) : CFix :=
  ⟨fxSub f1 f2 a.re b.re, fxSub f1 f2 a.im b.im⟩

/-- `Mul<ComplexFixed<F2>> for ComplexFixed<F1>`
(src/fixed/types/fixed_complex.rs lines 79-91): 4-multiply form,
`re = ac - bd`, `im = ad + bc`; the products are at scale `F1`, so the
outer add/sub are same-scale `F1` operations. -/
def cfxMul (f1 f2 : ℕ) (a b : CFix) : CFix :=
  ⟨fxSub f1 f1 (fxMul f2 a.re b.re) (fxMul f2 a.im b.im),
   fxAdd f1 f1 (fxMul f2 a.re b.im) (fxMul f2 a.im b.re)⟩

/-- The rotate-by-i step of the fixed real-FFT unweave/reweave
(src/fixed/real.rs lines 107-111 and 169-173): `(re, im) ↦ (-im, re)` with
*wrapping* negation `wrapping_neg`. -/
def rotate90 (z : CFix) : CFix := ⟨wrapNeg z.im, z.re⟩

/-- `FftError` (src/common.rs lines 3-9). -/
inductive FftError where
  | SizeMismatch
  | NotPowerOfTwo
  | BufferTooSmall
  | InvalidStride
deriving DecidableEq, Repr

/-! ## Basic facts about the integer helpers -/

theorem wrap32_eq_self {x : ℤ} (h1 : -2 ^ 31 ≤ x) (h2 : x < 2 ^ 31) :
    wrap32 x = x := by
  have h0 : (0 : ℤ) ≤ x + 2 ^ 31 := by linarith
  have hlt : x + 2 ^ 31 < 2 ^ 32 := by norm_num at h2 ⊢; linarith
  simp only [wrap32]
  rw [Int.emod_eq_of_lt h0 hlt]
  ring

theorem fxConvert_self (f : ℕ) (x : ℤ) : fxConvert f f x = x := by
  simp [fxConvert, sshr]

theorem sshr_nonneg_small {x : ℤ} (k : ℕ) (h0 : 0 ≤ x) (h : x < 2 ^ k) :
    sshr x k = 0 := Int.ediv_eq_zero_of_lt h0 h

theorem fxMul_zero_left (f2 : ℕ) (b : ℤ) : fxMul f2 0 b = 0 := by
  rcases Nat.eq_zero_or_pos f2 with h | h
  · simp [fxMul, h, wrap32]
  · have h1 : (0 : ℤ) ≤ 2 ^ (f2 - 1) := by positivity
    have h2 : (2 : ℤ) ^ (f2 - 1) < 2 ^ f2 := by
      apply pow_lt_pow_right₀ (by norm_num)
      omega
    simp only [fxMul, if_pos h, zero_mul, zero_add]
    rw [sshr_nonneg_small _ h1 h2]
    simp [wrap32]

/-- The unrounded product shifted by `f2`, with the rounding offset, is the
round-to-nearest (ties away from zero upward) value of `a*b/2^f2`. -/
theorem fxMul_floor_form (f2 : ℕ) (a b : ℤ) :
    fxMul f2 a b = wrap32 ⌊(a * b : ℚ) / 2 ^ f2 + 1 / 2⌋ := by
  have key : ((a * b : ℚ) / 2 ^ f2 + 1 / 2) =
      ((2 * (a * b) + 2 ^ f2 : ℤ) : ℚ) / ((2 ^ (f2 + 1) : ℕ) : ℚ) := by
    push_cast
    field_simp
    ring
  rw [key, Rat.floor_intCast_div_natCast]
  rcases Nat.eq_zero_or_pos f2 with h | h
  · subst h
    simp only [fxMul, if_neg (lt_irrefl 0)]
    have : (2 * (a * b) + 2 ^ 0) / ((2 ^ (0 + 1) : ℕ) : ℤ) = a * b := by
      have h2 : ((2 ^ (0 + 1) : ℕ) : ℤ) = 2 := by norm_num
      rw [h2]
      have : 2 * (a * b) + 2 ^ 0 = 1 + (a * b) * 2 := by ring
      rw [this, Int.add_mul_ediv_right 1 (a * b) (by norm_num)]
      norm_num
    rw [this]
  · obtain ⟨k, rfl⟩ : ∃ k, f2 = k + 1 := ⟨f2 - 1, by omega⟩
    simp only [fxMul, if_pos h, sshr]
    have h2 : (2 * (a * b) + 2 ^ (k + 1)) = 2 * (a * b + 2 ^ (k + 1 - 1)) := by
      have : k + 1 - 1 = k := by omega
      rw [this]; ring
    have h3 : ((2 ^ (k + 1 + 1) : ℕ) : ℤ) = 2 * 2 ^ (k + 1) := by
      push_cast; ring
    rw [h2, h3, Int.mul_ediv_mul_of_pos _ _ (by norm_num : (0 : ℤ) < 2)]

/-! ## Claim C3: mixed-precision scalar arithmetic -/

/-- C3.  Every binary `Fixed` operation yields its result at the left
operand's scale: `add`/`sub` rescale the right operand to `F1` via `convert`
and then combine the raw stores, while `mul` widens both stores, multiplies,
rounds to nearest by adding `2^(F2-1)` before the arithmetic right shift by
`F2` (equivalently: the floor of the `F2`-rescaled product plus one half),
and narrows the result back to 32 bits. -/
theorem claim_c3_mixed_precision_ops (f1 f2 : ℕ) (a b : ℤ) :
    fxAdd f1 f2 a b = wrap32 (a + fxConvert f2 f1 b) ∧
    fxSub f1 f2 a b = wrap32 (a - fxConvert f2 f1 b) ∧
    fxMul f2 a b = wrap32 ⌊(a * b : ℚ) / 2 ^ f2 + 1 / 2⌋ ∧
    (0 < f2 → fxMul f2 a b = wrap32 (sshr (a * b + 2 ^ (f2 - 1)) f2)) := by
  refine ⟨rfl, rfl, fxMul_floor_form f2 a b, fun h => ?_⟩
  simp [fxMul, if_pos h]

/-! ## Claim C6: convert exactness and truncation -/

/-- C6 counterexample: widening `convert` is *not* always exact.  The store
`2^30` at `F = 0` (value `2^30`) left-shifted to `F = 2` overflows the 32-bit
store and wraps to `0`, changing the represented value. -/
theorem claim_c6_counterexample :
    fxConvert 0 2 (2 ^ 30) = 0 ∧ fxVal 2 (fxConvert 0 2 (2 ^ 30)) ≠ fxVal 0 (2 ^ 30) := by
  constructor
  · decide
  · norm_num [fxVal, fxConvert, wrap32, sshr]

/-- C6 (amended).  `convert::<ToF>()` with `ToF > F` left-shifts the store by
`ToF - F` and is exact — the represented value is unchanged — *provided* the
shifted store still fits in 32 bits (without that proviso it wraps, see the
counterexample); with `ToF < F` it arithmetically right-shifts by `F - ToF`,
which is the floor (truncation toward negative infinity) of the rescaled
value, not round-to-nearest. -/
theorem claim_c6_convert (f tof : ℕ) (x : ℤ) :
    (f < tof → -2 ^ 31 ≤ x * 2 ^ (tof - f) → x * 2 ^ (tof - f) < 2 ^ 31 →
      fxConvert f tof x = x * 2 ^ (tof - f) ∧
      fxVal tof (fxConvert f tof x) = fxVal f x) ∧
    (tof < f → fxConvert f tof x = ⌊fxVal f x * 2 ^ tof⌋) := by
  constructor
  · intro hf hlo hhi
    have hc : fxConvert f tof x = x * 2 ^ (tof - f) := by
      rw [fxConvert, if_pos hf, wrap32_eq_self hlo hhi]
    refine ⟨hc, ?_⟩
    rw [hc]
    simp only [fxVal]
    have hsplit : tof = (tof - f) + f := by omega
    rw [hsplit]
    push_cast
    rw [pow_add]
    field_simp
    ring
  · intro hf
    rw [fxConvert, if_neg (by omega), sshr]
    have key : fxVal f x * 2 ^ tof = ((x : ℤ) : ℚ) / ((2 ^ (f - tof) : ℕ) : ℚ) := by
      simp only [fxVal]
      have hsplit : f = (f - tof) + tof := by omega
      rw [hsplit]
      push_cast
      rw [pow_add]
      field_simp
      ring
    rw [key, Rat.floor_intCast_div_natCast]
    norm_num

/-! ## Claim C7: the two negation policies -/

/-- C7.  The public fixed-point `conj` negates the imaginary store with
saturating negation (`i32::MIN ↦ i32::MAX`), while the internal rotate-90
step of the real-FFT unweave/reweave negates with wrapping negation
(`i32::MIN ↦ i32::MIN`); at the store `i32::MIN` the two policies produce
different results. -/
theorem claim_c7_negation_policies (z : CFix) :
    (cfxConj z).im = satNeg z.im ∧
    (rotate90 z).re = wrapNeg z.im ∧
    satNeg (-2 ^ 31) = 2 ^ 31 - 1 ∧
    wrapNeg (-2 ^ 31) = -2 ^ 31 ∧
    (cfxConj ⟨0, -2 ^ 31⟩).im ≠ (rotate90 ⟨0, -2 ^ 31⟩).re := by
  refine ⟨rfl, rfl, by decide, by decide, by decide⟩

/-! ## The bit-reversal table (`precompute_bitrev`, src/fixed/core.rs lines
25-37 and identically src/float/core.rs lines 24-36)

The inner `while j >= k { j -= k; k >>= 1 }` is modelled with explicit fuel
(the Rust loop would only fail to terminate in states with `k = 0 ∧ j ≥ 0`,
which are unreachable from the function's callers); any fuel `≥ k` gives the
loop's exact behaviour. -/

/-- The carry loop of `precompute_bitrev`: while `j ≥ k` (and `k > 0`),
subtract `k` from `j` and halve `k`; returns the final `(k, j)`. -/
def bitrevLoop : ℕ → ℕ → ℕ → ℕ × ℕ
  | 0, k, j => (k, j)
  | fuel + 1, k, j => if 0 < k ∧ k ≤ j then bitrevLoop fuel (k / 2) (j - k) else (k, j)

/-- One iteration of the `precompute_bitrev` body: run the carry loop
starting from `k = n/2`, then add the final `k` to `j`. -/
def bitrevStep (n j : ℕ) : ℕ :=
  (bitrevLoop n (n / 2) j).2 + (bitrevLoop n (n / 2) j).1

/-- The value of the running accumulator `j` after the iterations for
indices `1..i` of `precompute_bitrev`; `bitrevJ n i` is the table entry at
index `i` (and `bitrevJ n 0 = 0` is the explicitly written `bitrev[0]`). -/
def bitrevJ (n : ℕ) : ℕ → ℕ
  | 0 => 0
  | i + 1 => bitrevStep n (bitrevJ n i)

/-- The table filled by `precompute_bitrev` for size `n`: the loop carries
the accumulator `j`, so entry `i` holds the `i`-th iterate of the step. -/
def precomputeBitrev (n : ℕ) : List ℕ := (List.range n).map (bitrevJ n)

/-- `i` with its `m`-bit binary representation reversed: bit `k` of `i` is
worth `2^(m-1-k)` in the reversal. -/
def bitReversed (m i : ℕ) : ℕ :=
  ∑ k ∈ Finset.range m, 2 ^ (m - 1 - k) * (i / 2 ^ k % 2)

theorem bitrevLoop_fuel_eq : ∀ f1 f2 k j, k ≤ f1 → k ≤ f2 →
    bitrevLoop f1 k j = bitrevLoop f2 k j := by
  intro f1
  induction f1 with
  | zero =>
    intro f2 k j h1 _
    interval_cases k
    cases f2 <;> simp [bitrevLoop]
  | succ f ih =>
    intro f2 k j h1 h2
    by_cases hg : 0 < k ∧ k ≤ j
    · obtain ⟨f2', rfl⟩ : ∃ f2', f2 = f2' + 1 := ⟨f2 - 1, by omega⟩
      simp only [bitrevLoop, if_pos hg]
      exact ih f2' (k / 2) (j - k) (by omega) (by omega)
    · cases f2 with
      | zero =>
        have : k = 0 := by omega
        subst this
        simp [bitrevLoop, hg]
      | succ f2' => simp [bitrevLoop, hg]

theorem bitReversed_zero_right (m : ℕ) : bitReversed m 0 = 0 := by
  simp [bitReversed]

theorem bitReversed_succ (m i : ℕ) :
    bitReversed (m + 1) i = i % 2 * 2 ^ m + bitReversed m (i / 2) := by
  simp only [bitReversed]
  rw [Finset.sum_range_succ']
  have h0 : 2 ^ (m + 1 - 1 - 0) * (i / 2 ^ 0 % 2) = i % 2 * 2 ^ m := by
    simp [Nat.mul_comm]
  rw [h0, Nat.add_comm]
  congr 1
  apply Finset.sum_congr rfl
  intro k hk
  have he : m + 1 - 1 - (k + 1) = m - 1 - k := by omega
  have hd : i / 2 ^ (k + 1) = i / 2 / 2 ^ k := by
    rw [pow_succ, Nat.mul_comm, Nat.div_div_eq_div_mul]
  rw [he, hd]

theorem bitReversed_lt (m i : ℕ) : bitReversed m i < 2 ^ m := by
  induction m generalizing i with
  | zero => simp [bitReversed]
  | succ m ih =>
    rw [bitReversed_succ]
    have h1 : i % 2 ≤ 1 := by omega
    have h2 := ih (i / 2)
    have h3 : i % 2 * 2 ^ m ≤ 2 ^ m := by
      calc i % 2 * 2 ^ m ≤ 1 * 2 ^ m := Nat.mul_le_mul_right _ h1
      _ = 2 ^ m := by ring
    calc i % 2 * 2 ^ m + bitReversed m (i / 2) < i % 2 * 2 ^ m + 2 ^ m := by omega
    _ ≤ 2 ^ m + 2 ^ m := by omega
    _ = 2 ^ (m + 1) := by ring

/-- The carry step sends the reversal of `i` to the reversal of `i + 1`
(the loop peels leading ones of `j`, i.e. trailing ones of `i`). -/
theorem bitrevStep_reversed : ∀ m i, i + 1 < 2 ^ m →
    bitrevStep (2 ^ m) (bitReversed m i) = bitReversed m (i + 1) := by
  intro m
  induction m with
  | zero => intro i h; omega
  | succ m ih =>
    intro i h
    have hn2 : 2 ^ (m + 1) / 2 = 2 ^ m := by
      rw [pow_succ, Nat.mul_div_cancel _ (by norm_num : (0:ℕ) < 2)]
    rcases Nat.even_or_odd i with he | ho
    · -- i even: the top (value 2^m) bit of the reversal is clear, the loop
      -- does not fire, and the reversal of i+1 simply gains that bit.
      have hmod : i % 2 = 0 := Nat.even_iff.mp he
      have hmod1 : (i + 1) % 2 = 1 := by omega
      have hdiv1 : (i + 1) / 2 = i / 2 := by omega
      have hj : bitReversed (m + 1) i = bitReversed m (i / 2) := by
        rw [bitReversed_succ, hmod]; ring_nf
      have hjlt : bitReversed m (i / 2) < 2 ^ m := bitReversed_lt m (i / 2)
      obtain ⟨f, hf⟩ : ∃ f, 2 ^ (m + 1) = f + 1 :=
        ⟨2 ^ (m + 1) - 1, by have h0 : (0:ℕ) < 2 ^ (m + 1) := pow_pos (by norm_num) _; omega⟩
      have hguard : ¬(0 < 2 ^ m ∧ 2 ^ m ≤ bitReversed m (i / 2)) := by
        push_neg
        intro _
        omega
      rw [bitrevStep, hn2, hj, hf]
      simp only [bitrevLoop, if_neg hguard]
      rw [bitReversed_succ, hmod1, hdiv1]
      ring
    · -- i odd: the top bit of the reversal is set; the loop clears it and
      -- continues exactly as the step for the (m-bit) reversal of i/2.
      have hmod : i % 2 = 1 := Nat.odd_iff.mp ho
      have hmod1 : (i + 1) % 2 = 0 := by omega
      have hdiv1 : (i + 1) / 2 = i / 2 + 1 := by omega
      have hj : bitReversed (m + 1) i = 2 ^ m + bitReversed m (i / 2) := by
        rw [bitReversed_succ, hmod]; ring
      have hrec : i / 2 + 1 < 2 ^ m := by
        rcases ho with ⟨t, rfl⟩
        have : 2 * t + 1 + 1 < 2 * 2 ^ m := by
          rw [← pow_succ']
          omega
        omega
      have hguard : 0 < 2 ^ m ∧ 2 ^ m ≤ bitReversed (m + 1) i := by
        constructor
        · positivity
        · omega
      obtain ⟨f, hf⟩ : ∃ f, 2 ^ (m + 1) = f + 1 :=
        ⟨2 ^ (m + 1) - 1, by have h0 : (0:ℕ) < 2 ^ (m + 1) := pow_pos (by norm_num) _; omega⟩
      have hsub : bitReversed (m + 1) i - 2 ^ m = bitReversed m (i / 2) := by omega
      have ihs := ih (i / 2) hrec
      simp only [bitrevStep, hn2] at ihs ⊢
      rw [hf]
      simp only [bitrevLoop, if_pos hguard, hsub]
      have hloop : bitrevLoop f (2 ^ m / 2) (bitReversed m (i / 2)) =
          bitrevLoop (2 ^ m) (2 ^ m / 2) (bitReversed m (i / 2)) := by
        apply bitrevLoop_fuel_eq
        · have : 2 ^ m / 2 ≤ 2 ^ m := Nat.div_le_self _ _
          omega
        · exact Nat.div_le_self _ _
      rw [hloop, ihs, bitReversed_succ, hmod1, hdiv1]
      ring

theorem bitrevJ_reversed (m : ℕ) : ∀ i, i < 2 ^ m → bitrevJ (2 ^ m) i = bitReversed m i := by
  intro i
  induction i with
  | zero => intro _; simp [bitrevJ, bitReversed_zero_right]
  | succ i ih =>
    intro h
    have hi : i < 2 ^ m := by omega
    simp only [bitrevJ, ih hi]
    exact bitrevStep_reversed m i h

/-! ## Claim C8: bit-reversal table correctness -/

/-- C8.  For every power-of-two size `N = 2^m`, `precompute_bitrev` fills
entry `0` with `0` and entry `i` with the value of `i` under reversal of its
`m`-bit binary representation, computed by the running-accumulator carry
algorithm; in particular for `N = 8` the table is `[0,4,2,6,1,5,3,7]`. -/
theorem claim_c8_bitrev_table (m i : ℕ) (h : i < 2 ^ m) :
    (precomputeBitrev (2 ^ m)).getD i 0 = bitReversed m i ∧
    (precomputeBitrev (2 ^ m)).getD 0 0 = 0 ∧
    precomputeBitrev 8 = [0, 4, 2, 6, 1, 5, 3, 7] := by
  have hget : ∀ t, t < 2 ^ m → (precomputeBitrev (2 ^ m)).getD t 0 = bitrevJ (2 ^ m) t := by
    intro t ht
    simp only [precomputeBitrev, List.getD_eq_getElem?_getD, List.getElem?_map,
      List.getElem?_range ht]
    rfl
  refine ⟨?_, ?_, by decide⟩
  · rw [hget i h, bitrevJ_reversed m i h]
  · rw [hget 0 (by positivity)]
    simp [bitrevJ]

/-- C8 witness: the table for `N = 8` at index `3` is `6`, the 3-bit
reversal of `3`. -/
theorem claim_c8_bitrev_table_witness :
    (precomputeBitrev (2 ^ 3)).getD 3 0 = bitReversed 3 3 :=
  (claim_c8_bitrev_table 3 3 (by decide)).1

/-- C6 witness: a widening conversion that preserves the value, and a
narrowing conversion realising the floor. -/
theorem claim_c6_convert_witness :
    fxVal 5 (fxConvert 2 5 7) = fxVal 2 7 ∧
    fxConvert 5 2 (-1) = ⌊fxVal 5 (-1) * 2 ^ 2⌋ :=
  ⟨((claim_c6_convert 2 5 7).1 (by norm_num) (by norm_num) (by norm_num)).2,
   (claim_c6_convert 5 2 (-1)).2 (by norm_num)⟩

/-! ## Generic in-place buffer machinery

Buffers are embedded as total functions `ℕ → α`; a slice of length `n` is
the restriction to positions `< n`.  `upd` is a single in-place write. -/

def upd {α : Type*} (b : ℕ → α) (i : ℕ) (v : α) : ℕ → α :=
  fun p => if p = i then v else b p

theorem upd_self {α : Type*} (b : ℕ → α) (i : ℕ) (v : α) : upd b i v i = v := by
  simp [upd]

theorem upd_other {α : Type*} (b : ℕ → α) (i : ℕ) (v : α) {p : ℕ} (h : p ≠ i) :
    upd b i v p = b p := by
  simp [upd, h]

/-- `buffer.swap(i, j)`. -/
def swapF {α : Type*} (b : ℕ → α) (i j : ℕ) : ℕ → α := upd (upd b i (b j)) j (b i)

/-- The bit-reverse permutation pass shared by both cores
(src/fixed/core.rs lines 61-66, src/float/core.rs lines 58-63):
`for i in 1..(n-1) { if i < bitrev[i] { swap(i, bitrev[i]) } }`. -/
def permutePass {α : Type*} (br : ℕ → ℕ) (n : ℕ) (b : ℕ → α) : ℕ → α :=
  (List.range' 1 (n - 2)).foldl (fun b i => if i < br i then swapF b i (br i) else b) b

/-- One butterfly of the stage loop: read `a = buf[j+i]`, `c = buf[j+i+S]`,
compute the pair `bf i a c` and write it back to those positions. -/
def bfStep {α : Type*} (bf : ℕ → α → α → α × α) (S j : ℕ) (b : ℕ → α) (i : ℕ) : ℕ → α :=
  upd (upd b (j + i) (bf i (b (j + i)) (b (j + i + S))).1)
    (j + i + S) (bf i (b (j + i)) (b (j + i + S))).2

/-- The inner loop `for i in 0..stride` for block start `j`. -/
def bfBlock {α : Type*} (bf : ℕ → α → α → α × α) (S j : ℕ) (b : ℕ → α) : ℕ → α :=
  (List.range S).foldl (bfStep bf S j) b

/-- The number of iterations of `for j in (0..n-stride).step_by(2*stride)`. -/
def blockCount (n S : ℕ) : ℕ := (n - S + (2 * S - 1)) / (2 * S)

/-- One full butterfly stage at stride `S` over a buffer of length `n`. -/
def runStage {α : Type*} (bf : ℕ → α → α → α × α) (S n : ℕ) (b : ℕ → α) : ℕ → α :=
  (List.range (blockCount n S)).foldl (fun b k => bfBlock bf S (k * (2 * S)) b) b

/-- The stage loop `while stride < n`, with the twiddle index `t` halving
each stage; `bf t` is the butterfly of the stage with twiddle index `t`.
Fuel-based: fuel `n` always suffices since the stride doubles. -/
def stagesGo {α : Type*} (bf : ℕ → ℕ → α → α → α × α) (n : ℕ) :
    ℕ → ℕ → ℕ → (ℕ → α) → (ℕ → α)
  | 0, _, _, b => b
  | fuel + 1, S, t, b =>
    if S < n then stagesGo bf n fuel (2 * S) (t / 2) (runStage (bf t) S n b) else b

/-- The value a butterfly stage at stride `S` assigns to position `p`
(for `p` inside the processed range). -/
def stageVal {α : Type*} (bf : ℕ → α → α → α × α) (S : ℕ) (b : ℕ → α) (p : ℕ) : α :=
  if p % (2 * S) < S then (bf (p % (2 * S)) (b p) (b (p + S))).1
  else (bf (p % (2 * S) - S) (b (p - S)) (b p)).2

theorem bfBlock_partial {α : Type*} (bf : ℕ → α → α → α × α) (S j : ℕ) (hS : 0 < S)
    (b : ℕ → α) : ∀ t, t ≤ S → ∀ p,
    (List.range t).foldl (bfStep bf S j) b p =
      if j ≤ p ∧ p < j + t then (bf (p - j) (b p) (b (p + S))).1
      else if j + S ≤ p ∧ p < j + S + t then (bf (p - (j + S)) (b (p - S)) (b p)).2
      else b p := by
  intro t
  induction t with
  | zero =>
    intro _ p
    have h1 : ¬(j ≤ p ∧ p < j + 0) := by omega
    have h2 : ¬(j + S ≤ p ∧ p < j + S + 0) := by omega
    simp only [List.range_zero, List.foldl_nil]
    rw [if_neg h1, if_neg h2]
  | succ t ih =>
    intro ht p
    rw [List.range_succ, List.foldl_append, List.foldl_cons, List.foldl_nil]
    have ihle : t ≤ S := by omega
    have hr1 : (List.range t).foldl (bfStep bf S j) b (j + t) = b (j + t) := by
      rw [ih ihle]
      have c1 : ¬(j ≤ j + t ∧ j + t < j + t) := by omega
      have c2 : ¬(j + S ≤ j + t ∧ j + t < j + S + t) := by omega
      rw [if_neg c1, if_neg c2]
    have hr2 : (List.range t).foldl (bfStep bf S j) b (j + t + S) = b (j + t + S) := by
      rw [ih ihle]
      have c1 : ¬(j ≤ j + t + S ∧ j + t + S < j + t) := by omega
      have c2 : ¬(j + S ≤ j + t + S ∧ j + t + S < j + S + t) := by omega
      rw [if_neg c1, if_neg c2]
    rw [bfStep, hr1, hr2]
    by_cases hp2 : p = j + t + S
    · subst hp2
      rw [upd_self]
      have c1 : ¬(j ≤ j + t + S ∧ j + t + S < j + (t + 1)) := by omega
      have c2 : j + S ≤ j + t + S ∧ j + t + S < j + S + (t + 1) := by omega
      rw [if_neg c1, if_pos c2]
      have e1 : j + t + S - (j + S) = t := by omega
      have e2 : j + t + S - S = j + t := by omega
      rw [e1, e2]
    · rw [upd_other _ _ _ hp2]
      by_cases hp1 : p = j + t
      · subst hp1
        rw [upd_self]
        have c1 : j ≤ j + t ∧ j + t < j + (t + 1) := by omega
        rw [if_pos c1]
        have e1 : j + t - j = t := by omega
        rw [e1]
      · rw [upd_other _ _ _ hp1, ih ihle]
        by_cases d1 : j ≤ p ∧ p < j + t
        · have d1' : j ≤ p ∧ p < j + (t + 1) := by omega
          rw [if_pos d1, if_pos d1']
        · by_cases d2 : j + S ≤ p ∧ p < j + S + t
          · have d1' : ¬(j ≤ p ∧ p < j + (t + 1)) := by omega
            have d2' : j + S ≤ p ∧ p < j + S + (t + 1) := by omega
            rw [if_neg d1, if_pos d2, if_neg d1', if_pos d2']
          · have d1' : ¬(j ≤ p ∧ p < j + (t + 1)) := by omega
            have d2' : ¬(j + S ≤ p ∧ p < j + S + (t + 1)) := by omega
            rw [if_neg d1, if_neg d2, if_neg d1', if_neg d2']

theorem blockCount_eq {S q : ℕ} (hS : 0 < S) : blockCount (q * (2 * S)) S = q := by
  rcases Nat.eq_zero_or_pos q with hq | hq
  · subst hq
    have h1 : 0 * (2 * S) - S + (2 * S - 1) = 2 * S - 1 := by omega
    rw [blockCount, h1]
    exact Nat.div_eq_of_lt (by omega)
  · have hge : 2 * S ≤ q * (2 * S) := Nat.le_mul_of_pos_left _ hq
    have h1 : q * (2 * S) - S + (2 * S - 1) = (S - 1) + (2 * S) * q := by
      have hc : (2 * S) * q = q * (2 * S) := Nat.mul_comm _ _
      omega
    rw [blockCount, h1, Nat.add_mul_div_left _ _ (by omega : 0 < 2 * S),
      Nat.div_eq_of_lt (by omega)]
    omega

theorem runStage_partial {α : Type*} (bf : ℕ → α → α → α × α) {S : ℕ} (hS : 0 < S)
    (b : ℕ → α) : ∀ t p,
    (List.range t).foldl (fun b k => bfBlock bf S (k * (2 * S)) b) b p =
      if p < t * (2 * S) then stageVal bf S b p else b p := by
  intro t
  induction t with
  | zero =>
    intro p
    simp
  | succ t ih =>
    intro p
    rw [List.range_succ, List.foldl_append, List.foldl_cons, List.foldl_nil]
    have hblock := bfBlock_partial bf S (t * (2 * S)) hS
      ((List.range t).foldl (fun b k => bfBlock bf S (k * (2 * S)) b) b) S le_rfl p
    rw [bfBlock, hblock]
    by_cases c1 : t * (2 * S) ≤ p ∧ p < t * (2 * S) + S
    · -- first half of block t: position gets the v1 output
      rw [if_pos c1]
      have hpn : ¬ p < t * (2 * S) := by omega
      have hps : ¬ p + S < t * (2 * S) := by omega
      rw [ih p, if_neg hpn, ih (p + S), if_neg hps]
      have hlt : p < (t + 1) * (2 * S) := by
        have : (t + 1) * (2 * S) = t * (2 * S) + 2 * S := by ring
        omega
      rw [if_pos hlt, stageVal]
      have hmod : p % (2 * S) = p - t * (2 * S) := by
        have hrep : p = (p - t * (2 * S)) + t * (2 * S) := by omega
        conv_lhs => rw [hrep]
        rw [Nat.add_mul_mod_self_right]
        exact Nat.mod_eq_of_lt (by omega)
      rw [if_pos (by omega : p % (2 * S) < S), hmod]
    · by_cases c2 : t * (2 * S) + S ≤ p ∧ p < t * (2 * S) + S + S
      · -- second half of block t: position gets the v2 output
        have c1' : ¬(t * (2 * S) ≤ p ∧ p < t * (2 * S) + S) := by omega
        rw [if_neg c1', if_pos c2]
        have hpn : ¬ p < t * (2 * S) := by omega
        have hpm : ¬ p - S < t * (2 * S) := by omega
        rw [ih p, if_neg hpn, ih (p - S), if_neg hpm]
        have hlt : p < (t + 1) * (2 * S) := by
          have : (t + 1) * (2 * S) = t * (2 * S) + 2 * S := by ring
          omega
        rw [if_pos hlt, stageVal]
        have hmod : p % (2 * S) = p - t * (2 * S) := by
          have hrep : p = (p - t * (2 * S)) + t * (2 * S) := by omega
          conv_lhs => rw [hrep]
          rw [Nat.add_mul_mod_self_right]
          exact Nat.mod_eq_of_lt (by omega)
        rw [if_neg (by omega : ¬ p % (2 * S) < S), hmod]
        have e1 : p - t * (2 * S) - S = p - (t * (2 * S) + S) := by omega
        rw [e1]
      · -- outside block t: untouched by this block
        have c1' : ¬(t * (2 * S) ≤ p ∧ p < t * (2 * S) + S) := by omega
        have c2' : ¬(t * (2 * S) + S ≤ p ∧ p < t * (2 * S) + S + S) := by omega
        rw [if_neg c1', if_neg c2', ih p]
        have hiff : p < (t + 1) * (2 * S) ↔ p < t * (2 * S) := by
          have : (t + 1) * (2 * S) = t * (2 * S) + 2 * S := by ring
          omega
        by_cases hp : p < t * (2 * S)
        · rw [if_pos hp, if_pos (hiff.mpr hp)]
        · rw [if_neg hp, if_neg (fun hc => hp (hiff.mp hc))]

/-- Pointwise description of one butterfly stage: position `p < n` receives
the first or second butterfly output of its pair according to `p % (2S)`,
positions `≥ n` are untouched. -/
theorem runStage_apply {α : Type*} (bf : ℕ → α → α → α × α) {S n q : ℕ} (hS : 0 < S)
    (hn : n = q * (2 * S)) (b : ℕ → α) (p : ℕ) :
    runStage bf S n b p = if p < n then stageVal bf S b p else b p := by
  rw [runStage, hn, blockCount_eq hS, runStage_partial bf hS b q p]

/-- A pass of guarded swaps at indices `≥ 1` preserves an
impulse-shaped buffer (`x` at position `0`, `y` everywhere else). -/
theorem foldl_swap_pattern {α : Type*} (x y : α) (br : ℕ → ℕ) :
    ∀ l : List ℕ, (∀ i ∈ l, 1 ≤ i) → ∀ b : ℕ → α,
      (∀ p, b p = if p = 0 then x else y) → ∀ p,
      (l.foldl (fun b i => if i < br i then swapF b i (br i) else b) b) p =
        if p = 0 then x else y := by
  intro l
  induction l with
  | nil => intro _ b hb p; exact hb p
  | cons i l ih =>
    intro hmem b hb p
    rw [List.foldl_cons]
    apply ih (fun q hq => hmem q (List.mem_cons_of_mem _ hq))
    intro q
    by_cases hsw : i < br i
    · rw [if_pos hsw]
      have hi1 : 1 ≤ i := hmem i (List.mem_cons_self _ _)
      rw [swapF]
      by_cases hq2 : q = br i
      · rw [hq2, upd_self, hb i, if_neg (by omega), if_neg (by omega)]
      · rw [upd_other _ _ _ hq2]
        by_cases hq1 : q = i
        · rw [hq1, upd_self, hb (br i), if_neg (by omega), if_neg (by omega)]
        · rw [upd_other _ _ _ hq1]
          exact hb q
    · rw [if_neg hsw]
      exact hb q

theorem permutePass_pattern {α : Type*} (x y : α) (br : ℕ → ℕ) (n : ℕ) (b : ℕ → α)
    (hb : ∀ p, b p = if p = 0 then x else y) (p : ℕ) :
    permutePass br n b p = if p = 0 then x else y := by
  apply foldl_swap_pattern x y br _ _ b hb
  intro i hi
  have := List.mem_range'_1.mp hi
  omega

theorem permutePass_const {α : Type*} (y : α) (br : ℕ → ℕ) (n : ℕ) (b : ℕ → α)
    (hb : ∀ p, b p = y) (p : ℕ) : permutePass br n b p = y := by
  have h := permutePass_pattern y y br n b (fun p => by rw [hb p, ite_self]) p
  rw [h, ite_self]

/-! ## The fixed-point radix-2 DIT core
(`radix_2_dit_fft_core`, src/fixed/core.rs lines 52-108) -/

/-- `TWIDDLE_FRAC` (src/fixed/core.rs line 8): twiddles are Q31. -/
def twiddleFrac : ℕ := 31

/-- The zero sample. -/
def zeroC : CFix := ⟨0, 0⟩

/-- The sample representing `1.0` at `frac` fractional bits. -/
def oneC (frac : ℕ) : CFix := ⟨2 ^ frac, 0⟩

/-- One butterfly of the fixed core: `w = twiddles[i * tw_index * twiddle_stride]`,
conjugated if inverse; `t = b * w`; `v1 = a + t`, `v2 = a - t`; both
half-scaled if inverse. -/
def fixedBf (frac : ℕ) (inv : Bool) (tw : ℕ → CFix) (twStride t i : ℕ)
    (a c : CFix) : CFix × CFix :=
  let w := tw (i * t * twStride)
  let w2 := if inv then cfxConj w else w
  let s := cfxMul frac twiddleFrac c w2
  let v1 := cfxAdd frac frac a s
  let v2 := cfxSub frac frac a s
  if inv then (cfxScaleHalf v1, cfxScaleHalf v2) else (v1, v2)

/-- `radix_2_dit_fft_core::<FRAC, INVERSE>` on a buffer of length `n`:
bit-reverse permutation, then the stage loop starting at `stride = 1`,
`tw_index = n/2`. -/
def fixedCore (frac : ℕ) (inv : Bool) (tw : ℕ → CFix) (br : ℕ → ℕ)
    (twStride n : ℕ) (b : ℕ → CFix) : ℕ → CFix :=
  stagesGo (fixedBf frac inv tw twStride) n n 1 (n / 2) (permutePass br n b)

/-- View a list buffer as a function buffer (out-of-range reads default to
zero; they never occur for the lengths the wrappers validate). -/
def toFun (l : List CFix) : ℕ → CFix := fun p => l.getD p zeroC

/-- Collect the first `n` positions of a function buffer back into a list. -/
def ofFun (n : ℕ) (f : ℕ → CFix) : List CFix := (List.range n).map f

/-- `CplxFft::process::<FRAC>` for fixed-point data
(src/fixed/complex.rs lines 44-56): length validation happens before any
mutation, so the result is the pair (status, final buffer contents);
`twiddle_stride = 1`. -/
def cplxFftProcess (frac n : ℕ) (tw : ℕ → CFix) (br : ℕ → ℕ)
    (buf : List CFix) (inv : Bool) : Except FftError Unit × List CFix :=
  if buf.length ≠ n then (.error .SizeMismatch, buf)
  else (.ok (), ofFun n (fixedCore frac inv tw br 1 n (toFun buf)))

/-! ### Value lemmas for the impulse / all-ones invariants -/

theorem fxAdd_same (f : ℕ) (a b : ℤ) : fxAdd f f a b = wrap32 (a + b) := by
  rw [fxAdd, fxConvert_self]

theorem fxSub_same (f : ℕ) (a b : ℤ) : fxSub f f a b = wrap32 (a - b) := by
  rw [fxSub, fxConvert_self]

theorem fxMul31_zero_right (v : ℤ) : fxMul twiddleFrac v 0 = 0 := by
  have h1 : (0 : ℤ) ≤ 2 ^ 30 := by norm_num
  have h2 : (2 : ℤ) ^ 30 < 2 ^ 31 := by norm_num
  simp only [fxMul, twiddleFrac, if_pos (by norm_num : (0:ℕ) < 31), mul_zero, zero_add]
  rw [show (31 : ℕ) - 1 = 30 from rfl, sshr_nonneg_small _ h1 h2]
  simp [wrap32]

theorem fxMul31_pow_M {f : ℕ} (hf : f ≤ 30) :
    fxMul twiddleFrac (2 ^ f) (2 ^ 31 - 1) = 2 ^ f := by
  have hkey : (2 : ℤ) ^ f * (2 ^ 31 - 1) + 2 ^ (31 - 1) =
      (2 ^ 30 - 2 ^ f) + 2 ^ 31 * 2 ^ f := by norm_num; ring
  have hnum : (0 : ℤ) ≤ 2 ^ 30 - 2 ^ f := by
    have : (2 : ℤ) ^ f ≤ 2 ^ 30 := pow_le_pow_right₀ (by norm_num) hf
    linarith
  have hlt : (2 : ℤ) ^ 30 - 2 ^ f < 2 ^ 31 := by
    have : (0 : ℤ) < 2 ^ f := by positivity
    norm_num
    linarith
  have hshift : sshr (2 ^ f * (2 ^ 31 - 1) + 2 ^ (31 - 1)) 31 = 2 ^ f := by
    rw [sshr, hkey, Int.add_mul_ediv_left _ _ (by positivity : (2:ℤ)^31 ≠ 0),
      Int.ediv_eq_zero_of_lt hnum hlt]
    ring
  simp only [fxMul, twiddleFrac, if_pos (by norm_num : (0:ℕ) < 31), hshift]
  apply wrap32_eq_self
  · have : (0 : ℤ) < 2 ^ f := by positivity
    norm_num
    linarith
  · exact pow_lt_pow_right₀ (by norm_num) (by omega)

theorem wrap32_zero : wrap32 0 = 0 := by decide

theorem cfxMul_zero_left (frac : ℕ) (w : CFix) :
    cfxMul frac twiddleFrac zeroC w = zeroC := by
  simp only [cfxMul, zeroC, fxMul_zero_left]
  rw [fxSub_same, fxAdd_same]
  norm_num [wrap32_zero]

theorem cfxMul_one_M {frac : ℕ} (hf : frac ≤ 30) :
    cfxMul frac twiddleFrac (oneC frac) ⟨2 ^ 31 - 1, 0⟩ = oneC frac := by
  simp only [cfxMul, oneC, fxMul31_zero_right, fxMul_zero_left, fxMul31_pow_M hf]
  rw [fxSub_same, fxAdd_same]
  have h1 : (0 : ℤ) < 2 ^ frac := by positivity
  have h2 : (2 : ℤ) ^ frac < 2 ^ 31 := pow_lt_pow_right₀ (by norm_num) (by omega)
  rw [sub_zero, add_zero, wrap32_eq_self (by linarith) h2, wrap32_zero]

theorem cfxConj_M : cfxConj ⟨2 ^ 31 - 1, 0⟩ = ⟨2 ^ 31 - 1, 0⟩ := by
  simp [cfxConj, satNeg]

theorem cfxAdd_zero_zero (frac : ℕ) : cfxAdd frac frac zeroC zeroC = zeroC := by
  rw [cfxAdd]
  simp only [zeroC, fxAdd_same]
  norm_num [wrap32_zero]

theorem cfxSub_zero_zero (frac : ℕ) : cfxSub frac frac zeroC zeroC = zeroC := by
  rw [cfxSub]
  simp only [zeroC, fxSub_same]
  norm_num [wrap32_zero]

theorem cfxAdd_zero_right {frac : ℕ} (hf : frac ≤ 30) (z : CFix)
    (hz : z = oneC frac ∨ z = zeroC) : cfxAdd frac frac z zeroC = z := by
  have h1 : (0 : ℤ) < 2 ^ frac := by positivity
  have h2 : (2 : ℤ) ^ frac < 2 ^ 31 := pow_lt_pow_right₀ (by norm_num) (by omega)
  rcases hz with rfl | rfl
  · rw [cfxAdd]
    simp only [oneC, zeroC, fxAdd_same, add_zero]
    rw [wrap32_eq_self (by linarith) h2, wrap32_zero]
  · exact cfxAdd_zero_zero frac

theorem cfxSub_zero_right {frac : ℕ} (hf : frac ≤ 30) (z : CFix)
    (hz : z = oneC frac ∨ z = zeroC) : cfxSub frac frac z zeroC = z := by
  have h1 : (0 : ℤ) < 2 ^ frac := by positivity
  have h2 : (2 : ℤ) ^ frac < 2 ^ 31 := pow_lt_pow_right₀ (by norm_num) (by omega)
  rcases hz with rfl | rfl
  · rw [cfxSub]
    simp only [oneC, zeroC, fxSub_same, sub_zero]
    rw [wrap32_eq_self (by linarith) h2, wrap32_zero]
  · exact cfxSub_zero_zero frac

theorem cfxScaleHalf_zero : cfxScaleHalf zeroC = zeroC := by
  simp [cfxScaleHalf, zeroC, fxHalf, sshr]

theorem cfxScaleHalf_double {frac : ℕ} (hf : frac ≤ 29) :
    cfxScaleHalf (cfxAdd frac frac (oneC frac) (oneC frac)) = oneC frac := by
  rw [cfxAdd]
  simp only [oneC, fxAdd_same, add_zero]
  have hsum : (2 : ℤ) ^ frac + 2 ^ frac = 2 ^ (frac + 1) := by ring
  have h1 : (0 : ℤ) < 2 ^ (frac + 1) := by positivity
  have h2 : (2 : ℤ) ^ (frac + 1) < 2 ^ 31 := pow_lt_pow_right₀ (by norm_num) (by omega)
  rw [hsum, wrap32_eq_self (by linarith) h2, wrap32_zero]
  simp only [cfxScaleHalf, fxHalf, sshr, pow_one]
  rw [pow_succ, Int.mul_ediv_cancel _ (by norm_num : (2:ℤ) ≠ 0), Int.zero_ediv]

theorem cfxSub_one_one (frac : ℕ) :
    cfxSub frac frac (oneC frac) (oneC frac) = zeroC := by
  rw [cfxSub]
  simp only [oneC, fxSub_same, sub_self]
  simp [zeroC, wrap32_zero]

/-! ### Unfoldings and special cases of the fixed butterfly -/

theorem fixedBf_false (frac : ℕ) (tw : ℕ → CFix) (twStride t i : ℕ) (a c : CFix) :
    fixedBf frac false tw twStride t i a c =
      (cfxAdd frac frac a (cfxMul frac twiddleFrac c (tw (i * t * twStride))),
       cfxSub frac frac a (cfxMul frac twiddleFrac c (tw (i * t * twStride)))) := rfl

theorem fixedBf_true (frac : ℕ) (tw : ℕ → CFix) (twStride t i : ℕ) (a c : CFix) :
    fixedBf frac true tw twStride t i a c =
      (cfxScaleHalf (cfxAdd frac frac a
          (cfxMul frac twiddleFrac c (cfxConj (tw (i * t * twStride))))),
       cfxScaleHalf (cfxSub frac frac a
          (cfxMul frac twiddleFrac c (cfxConj (tw (i * t * twStride)))))) := rfl

theorem fixedBf_fwd_zero_c {frac : ℕ} (hf : frac ≤ 30) (tw : ℕ → CFix)
    (twStride t i : ℕ) (a : CFix) (ha : a = oneC frac ∨ a = zeroC) :
    fixedBf frac false tw twStride t i a zeroC = (a, a) := by
  rw [fixedBf_false, cfxMul_zero_left, cfxAdd_zero_right hf _ ha,
    cfxSub_zero_right hf _ ha]

theorem fixedBf_inv_zero (frac : ℕ) (tw : ℕ → CFix) (twStride t i : ℕ) :
    fixedBf frac true tw twStride t i zeroC zeroC = (zeroC, zeroC) := by
  rw [fixedBf_true, cfxMul_zero_left, cfxAdd_zero_zero, cfxSub_zero_zero,
    cfxScaleHalf_zero]

theorem fixedBf_inv_one_one {frac : ℕ} (hf : frac ≤ 29) (tw : ℕ → CFix)
    (twStride t : ℕ) (htw : tw 0 = ⟨2 ^ 31 - 1, 0⟩) :
    fixedBf frac true tw twStride t 0 (oneC frac) (oneC frac) = (oneC frac, zeroC) := by
  rw [fixedBf_true]
  simp only [Nat.zero_mul, htw, cfxConj_M]
  rw [cfxMul_one_M (by omega), cfxScaleHalf_double hf, cfxSub_one_one, cfxScaleHalf_zero]

/-! ### Stage invariants: forward impulse and inverse all-ones

Proved generically over the element type and butterfly, then instantiated
for the fixed-point and floating-point cores. -/

/-- If `p` lies in the first half of its block (`p % 2X < X`) then its
butterfly partner `p + X` is still inside the buffer. -/
theorem partner_lt {X n p : ℕ} (hdvd : 2 * X ∣ n) (hp : p < n)
    (hr : p % (2 * X) < X) : p + X < n := by
  obtain ⟨c, rfl⟩ := hdvd
  have hdm := Nat.div_add_mod p (2 * X)
  have hdiv : p / (2 * X) < c := by
    by_contra hcon
    push_neg at hcon
    have hmul : 2 * X * c ≤ 2 * X * (p / (2 * X)) := Nat.mul_le_mul_left _ hcon
    omega
  have hmul : 2 * X * (p / (2 * X)) + 2 * X ≤ 2 * X * c := by
    have h1 : 2 * X * (p / (2 * X) + 1) ≤ 2 * X * c :=
      Nat.mul_le_mul_left _ (Nat.succ_le_of_lt hdiv)
    have h2 : 2 * X * (p / (2 * X) + 1) = 2 * X * (p / (2 * X)) + 2 * X := by ring
    omega
  omega

/-- A forward stage turns the `[1,…,1,0,…,0]` pattern of width `X` into the
same pattern of width `2X`, as soon as the butterfly fixes pattern values
paired with a zero sample (the twiddles are only ever multiplied into zero
samples). -/
theorem stageVal_impulse {α : Type*} (one zero : α) (bf : ℕ → α → α → α × α)
    (hbf : ∀ i a, (a = one ∨ a = zero) → bf i a zero = (a, a))
    (X : ℕ) (b : ℕ → α)
    (hb : ∀ p, b p = if p < X then one else zero) (p : ℕ) :
    stageVal bf X b p = if p < 2 * X then one else zero := by
  have hbz : ∀ q, X ≤ q → b q = zero := by
    intro q hq
    rw [hb q, if_neg (by omega)]
  rw [stageVal]
  by_cases hr : p % (2 * X) < X
  · rw [if_pos hr]
    have hc : b (p + X) = zero := hbz _ (by omega)
    by_cases hp2 : p < 2 * X
    · have hpp : p % (2 * X) = p := Nat.mod_eq_of_lt hp2
      have ha : b p = one := by rw [hb p, if_pos (by omega)]
      rw [ha, hc, hbf _ _ (Or.inl rfl), if_pos hp2]
    · have ha : b p = zero := hbz _ (by omega)
      rw [ha, hc, hbf _ _ (Or.inr rfl), if_neg hp2]
  · rw [if_neg hr]
    have hXr : X ≤ p % (2 * X) := le_of_not_lt hr
    have hXp : X ≤ p := le_trans hXr (Nat.mod_le _ _)
    have hcz : b p = zero := hbz _ hXp
    by_cases hp2 : p < 2 * X
    · have hpp : p % (2 * X) = p := Nat.mod_eq_of_lt hp2
      have ha : b (p - X) = one := by rw [hb _, if_pos (by omega)]
      rw [ha, hcz, hbf _ _ (Or.inl rfl), if_pos hp2]
    · have ha : b (p - X) = zero := hbz _ (by omega)
      rw [ha, hcz, hbf _ _ (Or.inr rfl), if_neg hp2]

/-- An inverse stage turns the `1` at multiples of `X` pattern into the `1`
at multiples of `2X` pattern on positions inside the buffer, as soon as the
butterfly halves a doubled sample at twiddle index `0` and fixes zeros
(only `twiddles[0]` is ever multiplied into nonzero samples). -/
theorem stageVal_ones {α : Type*} (one zero : α) (bf : ℕ → α → α → α × α)
    (hbf1 : bf 0 one one = (one, zero)) (hbfz : ∀ i, bf i zero zero = (zero, zero))
    (X n : ℕ) (hX : 0 < X) (hdvd : 2 * X ∣ n) (b : ℕ → α)
    (hb : ∀ q, q < n → b q = if X ∣ q then one else zero)
    (p : ℕ) (hp : p < n) :
    stageVal bf X b p = if 2 * X ∣ p then one else zero := by
  have hdvd2 : X ∣ 2 * X := dvd_mul_left X 2
  have hmod : X ∣ p % (2 * X) ↔ X ∣ p := Nat.dvd_mod_iff hdvd2
  have hd2d : 2 * X ∣ p → X ∣ p := fun h => dvd_trans hdvd2 h
  rw [stageVal]
  by_cases hr : p % (2 * X) < X
  · rw [if_pos hr]
    have hpX : p + X < n := partner_lt hdvd hp hr
    by_cases hd : X ∣ p
    · have hr0 : p % (2 * X) = 0 := Nat.eq_zero_of_dvd_of_lt (hmod.mpr hd) hr
      have hd2 : 2 * X ∣ p := Nat.dvd_iff_mod_eq_zero.mpr hr0
      have ha : b p = one := by rw [hb p hp, if_pos hd]
      have hc : b (p + X) = one := by
        rw [hb _ hpX, if_pos (dvd_add hd (dvd_refl X))]
      rw [hr0, ha, hc, hbf1, if_pos hd2]
    · have ha : b p = zero := by rw [hb p hp, if_neg hd]
      have hc : b (p + X) = zero := by
        rw [hb _ hpX, if_neg ?_]
        intro hx
        exact hd ((Nat.dvd_add_right (dvd_refl X)).mp (by rwa [Nat.add_comm] at hx))
      rw [ha, hc, hbfz, if_neg (fun hx => hd (hd2d hx))]
  · rw [if_neg hr]
    have hXr : X ≤ p % (2 * X) := le_of_not_lt hr
    have hXp : X ≤ p := le_trans hXr (Nat.mod_le _ _)
    have hrlt : p % (2 * X) < 2 * X := Nat.mod_lt _ (by omega)
    by_cases hd : X ∣ p
    · have hrd : X ∣ p % (2 * X) := hmod.mpr hd
      have hrX : p % (2 * X) = X := by
        rcases hrd with ⟨c, hc⟩
        have hc2 : c < 2 := by
          have hlt2 : X * c < X * 2 := by omega
          exact Nat.lt_of_mul_lt_mul_left hlt2
        have hc1 : 1 ≤ c := by
          rcases Nat.eq_zero_or_pos c with rfl | hpos
          · omega
          · exact hpos
        have hc3 : c = 1 := by omega
        rw [hc, hc3, Nat.mul_one]
      have hnd2 : ¬ 2 * X ∣ p := by
        intro hx
        have h0 : p % (2 * X) = 0 := Nat.dvd_iff_mod_eq_zero.mp hx
        omega
      have ha : b (p - X) = one := by
        rw [hb _ (by omega), if_pos (Nat.dvd_sub' hd (dvd_refl X))]
      have hc : b p = one := by rw [hb p hp, if_pos hd]
      rw [hrX, Nat.sub_self, ha, hc, hbf1, if_neg hnd2]
    · have ha : b (p - X) = zero := by
        rw [hb _ (by omega), if_neg ?_]
        intro hx
        apply hd
        have hrep : p - X + X = p := Nat.sub_add_cancel hXp
        rw [← hrep]
        exact dvd_add hx (dvd_refl X)
      have hc : b p = zero := by rw [hb p hp, if_neg hd]
      rw [ha, hc, hbfz, if_neg (fun hx => hd (hd2d hx))]

theorem pow2_lt_iff {s m : ℕ} : (2 : ℕ) ^ s < 2 ^ m ↔ s < m := by
  constructor
  · intro h
    by_contra hc
    push_neg at hc
    exact absurd (Nat.pow_le_pow_right (by norm_num : 1 ≤ 2) hc : (2:ℕ) ^ m ≤ 2 ^ s)
      (by omega)
  · intro h
    exact Nat.pow_lt_pow_right (by norm_num) h

theorem pow2_split {s m : ℕ} (h : s < m) :
    (2 : ℕ) ^ m = 2 ^ (m - s - 1) * (2 * 2 ^ s) := by
  have h1 : 2 * 2 ^ s = 2 ^ (s + 1) := (pow_succ' 2 s).symm
  rw [h1, ← pow_add]
  congr 1
  omega

/-- Running the remaining stages on a buffer in the width-`2^s` impulse
pattern yields the all-ones buffer. -/
theorem stagesGo_impulse {α : Type*} (one zero : α) (mkBf : ℕ → ℕ → α → α → α × α)
    (hbf : ∀ t i a, (a = one ∨ a = zero) → mkBf t i a zero = (a, a)) (m : ℕ) :
    ∀ fuel s t b, s ≤ m → m - s ≤ fuel →
    (∀ p, b p = if p < 2 ^ s then one else zero) →
    ∀ p, stagesGo mkBf (2 ^ m) fuel (2 ^ s) t b p =
      if p < 2 ^ m then one else zero := by
  intro fuel
  induction fuel with
  | zero =>
    intro s t b hs hfuel hb p
    have hsm : s = m := by omega
    subst hsm
    simpa only [stagesGo] using hb p
  | succ fuel ih =>
    intro s t b hs hfuel hb p
    simp only [stagesGo]
    by_cases hlt : (2 : ℕ) ^ s < 2 ^ m
    · rw [if_pos hlt]
      have hsm : s < m := pow2_lt_iff.mp hlt
      have h1 : (2 : ℕ) * 2 ^ s = 2 ^ (s + 1) := (pow_succ' 2 s).symm
      have hXpos : (0 : ℕ) < 2 ^ s := pow_pos (by norm_num) s
      have hnew : ∀ q, runStage (mkBf t) (2 ^ s) (2 ^ m) b q =
          if q < 2 ^ (s + 1) then one else zero := by
        intro q
        rw [runStage_apply _ hXpos (pow2_split hsm) b q]
        by_cases hqn : q < 2 ^ m
        · rw [if_pos hqn,
            stageVal_impulse one zero (mkBf t) (hbf t) (2 ^ s) b hb q, h1]
        · rw [if_neg hqn, hb q]
          have c1 : ¬ q < 2 ^ s := by
            have := Nat.pow_le_pow_right (by norm_num : 1 ≤ 2) hs
            omega
          have c2 : ¬ q < 2 ^ (s + 1) := by
            have := Nat.pow_le_pow_right (by norm_num : 1 ≤ 2) (by omega : s + 1 ≤ m)
            omega
          rw [if_neg c1, if_neg c2]
      rw [h1]
      exact ih (s + 1) (t / 2) _ (by omega) (by omega) hnew p
    · rw [if_neg hlt]
      have hsm : s = m := by
        rcases Nat.lt_or_ge s m with h | h
        · exact absurd (pow2_lt_iff.mpr h) hlt
        · omega
      subst hsm
      exact hb p

/-- Running the remaining stages on a buffer with ones at the multiples of
`2^s` yields the impulse pattern on `[0, 2^m)`. -/
theorem stagesGo_ones {α : Type*} (one zero : α) (mkBf : ℕ → ℕ → α → α → α × α)
    (hbf1 : ∀ t, mkBf t 0 one one = (one, zero))
    (hbfz : ∀ t i, mkBf t i zero zero = (zero, zero)) (m : ℕ) :
    ∀ fuel s t b, s ≤ m → m - s ≤ fuel →
    (∀ p, p < 2 ^ m → b p = if 2 ^ s ∣ p then one else zero) →
    ∀ p, p < 2 ^ m →
      stagesGo mkBf (2 ^ m) fuel (2 ^ s) t b p =
        if 2 ^ m ∣ p then one else zero := by
  intro fuel
  induction fuel with
  | zero =>
    intro s t b hs hfuel hb p hp
    have hsm : s = m := by omega
    subst hsm
    simpa only [stagesGo] using hb p hp
  | succ fuel ih =>
    intro s t b hs hfuel hb p hp
    simp only [stagesGo]
    by_cases hlt : (2 : ℕ) ^ s < 2 ^ m
    · rw [if_pos hlt]
      have hsm : s < m := pow2_lt_iff.mp hlt
      have h1 : (2 : ℕ) * 2 ^ s = 2 ^ (s + 1) := (pow_succ' 2 s).symm
      have hXpos : (0 : ℕ) < 2 ^ s := pow_pos (by norm_num) s
      have hdvd : 2 * 2 ^ s ∣ 2 ^ m :=
        ⟨2 ^ (m - s - 1), by rw [pow2_split hsm]; ring⟩
      have hnew : ∀ q, q < 2 ^ m →
          runStage (mkBf t) (2 ^ s) (2 ^ m) b q =
            if 2 ^ (s + 1) ∣ q then one else zero := by
        intro q hq
        rw [runStage_apply _ hXpos (pow2_split hsm) b q, if_pos hq,
          stageVal_ones one zero (mkBf t) (hbf1 t) (hbfz t) (2 ^ s) (2 ^ m)
            hXpos hdvd b hb q hq, h1]
      rw [h1]
      exact ih (s + 1) (t / 2) _ (by omega) (by omega) hnew p hp
    · rw [if_neg hlt]
      have hsm : s = m := by
        rcases Nat.lt_or_ge s m with h | h
        · exact absurd (pow2_lt_iff.mpr h) hlt
        · omega
      subst hsm
      exact hb p hp

/-! ### The fixed core on the impulse and all-ones inputs -/

/-- The complex impulse `[1, 0, 0, …]` at `frac` fractional bits. -/
def impulseBuf (frac : ℕ) : ℕ → CFix := fun p => if p = 0 then oneC frac else zeroC

/-- The all-ones complex buffer at `frac` fractional bits. -/
def onesBuf (frac : ℕ) : ℕ → CFix := fun _ => oneC frac

theorem fixedCore_impulse {frac : ℕ} (hf : frac ≤ 30) (tw : ℕ → CFix) (br : ℕ → ℕ)
    (twStride m : ℕ) (p : ℕ) :
    fixedCore frac false tw br twStride (2 ^ m) (impulseBuf frac) p =
      if p < 2 ^ m then oneC frac else zeroC := by
  rw [fixedCore]
  have hperm : ∀ q, permutePass br (2 ^ m) (impulseBuf frac) q =
      if q < 2 ^ 0 then oneC frac else zeroC := by
    intro q
    rw [permutePass_pattern (oneC frac) zeroC br _ (impulseBuf frac) (fun r => rfl) q]
    by_cases hq : q = 0
    · rw [if_pos hq, if_pos (by omega)]
    · rw [if_neg hq, if_neg (by omega)]
  exact stagesGo_impulse (oneC frac) zeroC _
    (fun t i a ha => fixedBf_fwd_zero_c hf tw twStride t i a ha) m
    (2 ^ m) 0 (2 ^ m / 2) _ (Nat.zero_le m) (by have := Nat.lt_two_pow m; omega)
    hperm p

theorem fixedCore_ones {frac : ℕ} (hf : frac ≤ 29) (tw : ℕ → CFix) (br : ℕ → ℕ)
    (twStride m : ℕ) (htw : tw 0 = ⟨2 ^ 31 - 1, 0⟩) (p : ℕ) (hp : p < 2 ^ m) :
    fixedCore frac true tw br twStride (2 ^ m) (onesBuf frac) p =
      if 2 ^ m ∣ p then oneC frac else zeroC := by
  rw [fixedCore]
  have hperm : ∀ q, q < 2 ^ m → permutePass br (2 ^ m) (onesBuf frac) q =
      if 2 ^ 0 ∣ q then oneC frac else zeroC := by
    intro q _
    rw [permutePass_const (oneC frac) br _ (onesBuf frac) (fun r => rfl) q,
      if_pos (by norm_num : (2:ℕ) ^ 0 ∣ q)]
  exact stagesGo_ones (oneC frac) zeroC _
    (fun t => fixedBf_inv_one_one hf tw twStride t htw)
    (fun t i => fixedBf_inv_zero frac tw twStride t i) m
    (2 ^ m) 0 (2 ^ m / 2) _ (Nat.zero_le m) (by have := Nat.lt_two_pow m; omega)
    hperm p hp

/-! ## The floating-point engine, idealised over exact rationals

`Complex32` values become pairs of rationals; every arithmetic operation of
the Rust code maps to the corresponding exact operation (the embedding
abstracts IEEE-754 rounding). -/

/-- `Complex32` over exact rationals. -/
structure CQ where
  re : ℚ
  im : ℚ
deriving DecidableEq, Repr

def cqAdd (a b : CQ) : CQ := ⟨a.re + b.re, a.im + b.im⟩

def cqSub (a b : CQ) : CQ := ⟨a.re - b.re, a.im - b.im⟩

/-- `Complex32` multiplication, `(ac - bd, ad + bc)`. -/
def cqMul (a b : CQ) : CQ :=
  ⟨a.re * b.re - a.im * b.im, a.re * b.im + a.im * b.re⟩

def cqConj (z : CQ) : CQ := ⟨z.re, -z.im⟩

/-- `Complex32::scale`. -/
def cqScale (c : ℚ) (z : CQ) : CQ := ⟨c * z.re, c * z.im⟩

def zeroQ : CQ := ⟨0, 0⟩

def oneQ : CQ := ⟨1, 0⟩

/-- One butterfly of the float core
(`radix_2_dit_fft_core`, src/float/core.rs lines 49-103): conjugate the
twiddle if inverse, `t = b*w`, `v1 = a+t`, `v2 = a-t`, and *per-stage
half-scaling* of both outputs in the inverse direction. -/
def floatBf (inv : Bool) (tw : ℕ → CQ) (twStride t i : ℕ) (a c : CQ) : CQ × CQ :=
  let w := tw (i * t * twStride)
  let w2 := if inv then cqConj w else w
  let s := cqMul c w2
  let v1 := cqAdd a s
  let v2 := cqSub a s
  if inv then (cqScale (1 / 2) v1, cqScale (1 / 2) v2) else (v1, v2)

/-- The float core: permutation then the stage loop. -/
def floatCore (inv : Bool) (tw : ℕ → CQ) (br : ℕ → ℕ) (twStride n : ℕ)
    (b : ℕ → CQ) : ℕ → CQ :=
  stagesGo (floatBf inv tw twStride) n n 1 (n / 2) (permutePass br n b)

/-- One butterfly of the float *complex engine*'s own inlined stage loop
(`CplxFft::process`, src/float/complex.rs lines 79-112): same butterfly but
with **no** per-stage scaling (and no twiddle stride). -/
def floatEngineBf (inv : Bool) (tw : ℕ → CQ) (t i : ℕ) (a c : CQ) : CQ × CQ :=
  let w := tw (i * t)
  let w2 := if inv then cqConj w else w
  let s := cqMul c w2
  (cqAdd a s, cqSub a s)

/-- The body of the float `CplxFft::process`
(src/float/complex.rs lines 66-126): permutation, unscaled stages, then —
only if inverse — one final scaling of every buffer element by `1/n`. -/
def floatProcessBody (inv : Bool) (tw : ℕ → CQ) (br : ℕ → ℕ) (n : ℕ)
    (b : ℕ → CQ) : ℕ → CQ :=
  let b2 := stagesGo (floatEngineBf inv tw) n n 1 (n / 2) (permutePass br n b)
  if inv then (fun p => if p < n then cqScale ((n : ℚ)⁻¹) (b2 p) else b2 p) else b2

theorem floatBf_false_def (tw : ℕ → CQ) (twStride t i : ℕ) (a c : CQ) :
    floatBf false tw twStride t i a c =
      (cqAdd a (cqMul c (tw (i * t * twStride))),
       cqSub a (cqMul c (tw (i * t * twStride)))) := rfl

theorem floatBf_true_def (tw : ℕ → CQ) (twStride t i : ℕ) (a c : CQ) :
    floatBf true tw twStride t i a c =
      (cqScale (1 / 2) (cqAdd a (cqMul c (cqConj (tw (i * t * twStride))))),
       cqScale (1 / 2) (cqSub a (cqMul c (cqConj (tw (i * t * twStride)))))) := rfl

theorem floatEngineBf_true_def (tw : ℕ → CQ) (t i : ℕ) (a c : CQ) :
    floatEngineBf true tw t i a c =
      (cqAdd a (cqMul c (cqConj (tw (i * t)))),
       cqSub a (cqMul c (cqConj (tw (i * t))))) := rfl

theorem cqMul_zero_left (w : CQ) : cqMul zeroQ w = zeroQ := by
  simp [cqMul, zeroQ]

theorem floatBf_fwd_zero_c (tw : ℕ → CQ) (twStride t i : ℕ) (a : CQ) :
    floatBf false tw twStride t i a zeroQ = (a, a) := by
  rw [floatBf_false_def, cqMul_zero_left]
  obtain ⟨ar, ai⟩ := a
  simp [cqAdd, cqSub, zeroQ]

theorem floatBf_inv_zero (tw : ℕ → CQ) (twStride t i : ℕ) :
    floatBf true tw twStride t i zeroQ zeroQ = (zeroQ, zeroQ) := by
  rw [floatBf_true_def, cqMul_zero_left]
  simp [cqAdd, cqSub, cqScale, zeroQ]

theorem floatBf_inv_one_one (tw : ℕ → CQ) (twStride t : ℕ) (htw : tw 0 = oneQ) :
    floatBf true tw twStride t 0 (oneQ) (oneQ) = (oneQ, zeroQ) := by
  rw [floatBf_true_def]
  simp only [Nat.zero_mul, htw]
  simp [cqConj, cqMul, cqAdd, cqSub, cqScale, oneQ, zeroQ]
  norm_num

/-- The complex impulse over rationals. -/
def impulseBufQ : ℕ → CQ := fun p => if p = 0 then oneQ else zeroQ

/-- The all-ones buffer over rationals. -/
def onesBufQ : ℕ → CQ := fun _ => oneQ

theorem floatCore_impulse (tw : ℕ → CQ) (br : ℕ → ℕ) (twStride m : ℕ) (p : ℕ) :
    floatCore false tw br twStride (2 ^ m) impulseBufQ p =
      if p < 2 ^ m then oneQ else zeroQ := by
  rw [floatCore]
  have hperm : ∀ q, permutePass br (2 ^ m) impulseBufQ q =
      if q < 2 ^ 0 then oneQ else zeroQ := by
    intro q
    rw [permutePass_pattern oneQ zeroQ br _ impulseBufQ (fun r => rfl) q]
    by_cases hq : q = 0
    · rw [if_pos hq, if_pos (by omega)]
    · rw [if_neg hq, if_neg (by omega)]
  exact stagesGo_impulse oneQ zeroQ _
    (fun t i a _ => floatBf_fwd_zero_c tw twStride t i a) m
    (2 ^ m) 0 (2 ^ m / 2) _ (Nat.zero_le m) (by have := Nat.lt_two_pow m; omega)
    hperm p

theorem floatCore_ones (tw : ℕ → CQ) (br : ℕ → ℕ) (twStride m : ℕ)
    (htw : tw 0 = oneQ) (p : ℕ) (hp : p < 2 ^ m) :
    floatCore true tw br twStride (2 ^ m) onesBufQ p =
      if 2 ^ m ∣ p then oneQ else zeroQ := by
  rw [floatCore]
  have hperm : ∀ q, q < 2 ^ m → permutePass br (2 ^ m) onesBufQ q =
      if 2 ^ 0 ∣ q then oneQ else zeroQ := by
    intro q _
    rw [permutePass_const oneQ br _ onesBufQ (fun r => rfl) q,
      if_pos (by norm_num : (2:ℕ) ^ 0 ∣ q)]
  exact stagesGo_ones oneQ zeroQ _
    (fun t => floatBf_inv_one_one tw twStride t htw)
    (fun t i => floatBf_inv_zero tw twStride t i) m
    (2 ^ m) 0 (2 ^ m / 2) _ (Nat.zero_le m) (by have := Nat.lt_two_pow m; omega)
    hperm p hp

/-! ### Per-stage halving versus the engine's single end division -/

theorem cqScale_one (z : CQ) : cqScale 1 z = z := by
  obtain ⟨zr, zi⟩ := z
  simp [cqScale]

/-- The halved inverse butterfly of the core, fed `k`-scaled inputs, is the
`k/2`-scaling of the engine's unscaled inverse butterfly. -/
theorem floatBf_halved_engine (tw : ℕ → CQ) (t i : ℕ) (a c : CQ) (k : ℚ) :
    floatBf true tw 1 t i (cqScale k a) (cqScale k c) =
      (cqScale (k / 2) (floatEngineBf true tw t i a c).1,
       cqScale (k / 2) (floatEngineBf true tw t i a c).2) := by
  rw [floatBf_true_def, floatEngineBf_true_def, Nat.mul_one]
  obtain ⟨ar, ai⟩ := a
  obtain ⟨cr, ci⟩ := c
  simp only [cqScale, cqAdd, cqSub, cqMul, cqConj, Prod.mk.injEq, CQ.mk.injEq]
  refine ⟨⟨?_, ?_⟩, ?_, ?_⟩ <;> ring

theorem runStage_halved_rel (tw : ℕ → CQ) (t : ℕ) {S n q0 : ℕ} (hS : 0 < S)
    (hn : n = q0 * (2 * S)) (hdvd : 2 * S ∣ n) (b1 b2 : ℕ → CQ) (k : ℚ)
    (hb : ∀ p, p < n → b1 p = cqScale k (b2 p)) :
    ∀ p, p < n → runStage (floatBf true tw 1 t) S n b1 p =
      cqScale (k / 2) (runStage (floatEngineBf true tw t) S n b2 p) := by
  intro p hp
  rw [runStage_apply _ hS hn b1 p, runStage_apply _ hS hn b2 p, if_pos hp,
    if_pos hp, stageVal, stageVal]
  by_cases hr : p % (2 * S) < S
  · rw [if_pos hr, if_pos hr]
    have hps : p + S < n := partner_lt hdvd hp hr
    rw [hb p hp, hb _ hps, floatBf_halved_engine]
  · rw [if_neg hr, if_neg hr]
    have hms : p - S < n := by omega
    rw [hb p hp, hb _ hms, floatBf_halved_engine]

/-- Running the remaining inverse stages with per-stage halving on
`k`-scaled inputs matches `k/2^(stages)` times the unscaled stages. -/
theorem stagesGo_halved_rel (tw : ℕ → CQ) (m : ℕ) :
    ∀ fuel s t b1 b2 (k : ℚ), s ≤ m → m - s ≤ fuel →
    (∀ p, p < 2 ^ m → b1 p = cqScale k (b2 p)) →
    ∀ p, p < 2 ^ m →
      stagesGo (floatBf true tw 1) (2 ^ m) fuel (2 ^ s) t b1 p =
        cqScale (k / 2 ^ (m - s))
          (stagesGo (floatEngineBf true tw) (2 ^ m) fuel (2 ^ s) t b2 p) := by
  intro fuel
  induction fuel with
  | zero =>
    intro s t b1 b2 k hs hfuel hb p hp
    have hsm : s = m := by omega
    subst hsm
    simp only [stagesGo, Nat.sub_self, pow_zero, div_one]
    exact hb p hp
  | succ fuel ih =>
    intro s t b1 b2 k hs hfuel hb p hp
    simp only [stagesGo]
    by_cases hlt : (2 : ℕ) ^ s < 2 ^ m
    · rw [if_pos hlt, if_pos hlt]
      have hsm : s < m := pow2_lt_iff.mp hlt
      have hXpos : (0 : ℕ) < 2 ^ s := pow_pos (by norm_num) s
      have hdvd : 2 * 2 ^ s ∣ 2 ^ m :=
        ⟨2 ^ (m - s - 1), by rw [pow2_split hsm]; ring⟩
      have hnew := runStage_halved_rel tw t hXpos (pow2_split hsm) hdvd b1 b2 k hb
      have h1 : (2 : ℕ) * 2 ^ s = 2 ^ (s + 1) := (pow_succ' 2 s).symm
      rw [h1]
      have hrec := ih (s + 1) (t / 2) _ _ (k / 2) (by omega) (by omega) hnew p hp
      rw [hrec]
      congr 1
      rw [div_div]
      congr 1
      rw [← pow_succ']
      congr 1
      omega
    · rw [if_neg hlt, if_neg hlt]
      have hsm : s = m := by
        rcases Nat.lt_or_ge s m with h | h
        · exact absurd (pow2_lt_iff.mpr h) hlt
        · omega
      subst hsm
      simp only [Nat.sub_self, pow_zero, div_one]
      exact hb p hp

/-! ## Claim C5: inverse normalisation parity -/

/-- C5.  In the inverse direction the butterfly core applies a half-scale
to both butterfly outputs at every stage, and the float complex engine's
inverse computes, on every position of every buffer of power-of-two
length, exactly the same result as that per-stage-halving core (the engine
implements the normalisation as one final division by `n`, which this
theorem proves extensionally equal to the per-stage halving under the
exact-arithmetic embedding); the second conjunct records that for the
fixed-point core the inverse butterfly is precisely the forward butterfly
on the conjugated table followed by the per-stage half-scale of both
outputs. -/
theorem claim_c5_per_stage_halving (tw : ℕ → CQ) (br : ℕ → ℕ) (m : ℕ)
    (b : ℕ → CQ) (p : ℕ) (hp : p < 2 ^ m) :
    floatProcessBody true tw br (2 ^ m) b p = floatCore true tw br 1 (2 ^ m) b p ∧
    (∀ (frac : ℕ) (tw2 : ℕ → CFix) (twS t i : ℕ) (a c : CFix),
      fixedBf frac true tw2 twS t i a c =
        (cfxScaleHalf (fixedBf frac false (fun j => cfxConj (tw2 j)) twS t i a c).1,
         cfxScaleHalf (fixedBf frac false (fun j => cfxConj (tw2 j)) twS t i a c).2)) := by
  constructor
  · have hrel := stagesGo_halved_rel tw m (2 ^ m) 0 (2 ^ m / 2)
      (permutePass br (2 ^ m) b) (permutePass br (2 ^ m) b) 1 (Nat.zero_le m)
      (by have := Nat.lt_two_pow m; omega)
      (fun q _ => (cqScale_one _).symm) p hp
    simp only [pow_zero, Nat.sub_zero] at hrel
    rw [floatCore, hrel, floatProcessBody]
    have hcast : ((2 ^ m : ℕ) : ℚ)⁻¹ = 1 / 2 ^ m := by push_cast; rw [inv_eq_one_div]
    simp only [hcast, if_true]
    rw [if_pos hp]
  · intro frac tw2 twS t i a c
    rfl

/-- C5 witness: the equivalence at a concrete size, table and buffer. -/
theorem claim_c5_per_stage_halving_witness :
    floatProcessBody true (fun _ => oneQ) (fun i => i) (2 ^ 1) (fun _ => oneQ) 0 =
      floatCore true (fun _ => oneQ) (fun i => i) 1 (2 ^ 1) (fun _ => oneQ) 0 :=
  (claim_c5_per_stage_halving (fun _ => oneQ) (fun i => i) 1 (fun _ => oneQ) 0
    (by norm_num)).1

/-! ## Claim C1: impulse and all-ones transforms -/

/-- C1 counterexample.  At fractional width 30 the value `1` is the store
`2^30`; the inverse transform of the all-ones buffer of length `N = 2`
computes `1 + 1` in the DC accumulation, which wraps the `i32` store, and
the engine returns `[-1, 0]` instead of the impulse `[1, 0]`.  The twiddle
table is the one `precompute` builds for `N = 2`: the single entry
`(cos 0, sin(-0)) = (0x7FFFFFFF, 0)` in Q31 (the `1.0 * 2^31` cast
saturates); the bit-reversal table is `precompute_bitrev 2`. -/
theorem claim_c1_counterexample :
    (cplxFftProcess 30 2 (fun k => if k = 0 then (⟨2 ^ 31 - 1, 0⟩ : CFix) else zeroC)
        (fun i => (precomputeBitrev 2).getD i 0) [oneC 30, oneC 30] true).2 =
      [⟨-(2 ^ 30), 0⟩, zeroC] ∧
    [(⟨-(2 ^ 30), 0⟩ : CFix), zeroC] ≠ [oneC 30, zeroC] := by
  constructor
  · decide
  · decide

/-- C1 (amended).  For every power-of-two length `N = 2^m` and both cores:
the forward transform of the impulse `[1,0,…,0]` is exactly the all-ones
buffer, and the inverse transform of the all-ones buffer is exactly the
impulse — for the float core unconditionally (exact-arithmetic embedding,
table entry 0 equal to `1`), and for the fixed core at fractional widths
`≤ 30` in the forward direction and `≤ 29` in the inverse direction (at
width 30 the inverse DC accumulation overflows, see the counterexample).
The fixed-point hypothesis `tw 0 = (2^31 - 1, 0)` is the Q31 entry that
`precompute_twiddles` writes at index 0. -/
theorem claim_c1_impulse_allones (frac m twStride : ℕ) (tw : ℕ → CFix)
    (br : ℕ → ℕ) (qtw : ℕ → CQ) (qbr : ℕ → ℕ) (p : ℕ) :
    (frac ≤ 30 →
      fixedCore frac false tw br twStride (2 ^ m) (impulseBuf frac) p =
        if p < 2 ^ m then oneC frac else zeroC) ∧
    (frac ≤ 29 → tw 0 = ⟨2 ^ 31 - 1, 0⟩ → p < 2 ^ m →
      fixedCore frac true tw br twStride (2 ^ m) (onesBuf frac) p =
        if p = 0 then oneC frac else zeroC) ∧
    (floatCore false qtw qbr twStride (2 ^ m) impulseBufQ p =
      if p < 2 ^ m then oneQ else zeroQ) ∧
    (qtw 0 = oneQ → p < 2 ^ m →
      floatCore true qtw qbr twStride (2 ^ m) onesBufQ p =
        if p = 0 then oneQ else zeroQ) := by
  refine ⟨?_, ?_, ?_, ?_⟩
  · intro hf
    exact fixedCore_impulse hf tw br twStride m p
  · intro hf htw hp
    rw [fixedCore_ones hf tw br twStride m htw p hp]
    by_cases hp0 : p = 0
    · rw [if_pos hp0, if_pos (by rw [hp0]; exact dvd_zero _)]
    · rw [if_neg hp0, if_neg ?_]
      intro hdvd
      exact hp0 (Nat.eq_zero_of_dvd_of_lt hdvd hp)
  · exact floatCore_impulse qtw qbr twStride m p
  · intro htw hp
    rw [floatCore_ones qtw qbr twStride m htw p hp]
    by_cases hp0 : p = 0
    · rw [if_pos hp0, if_pos (by rw [hp0]; exact dvd_zero _)]
    · rw [if_neg hp0, if_neg ?_]
      intro hdvd
      exact hp0 (Nat.eq_zero_of_dvd_of_lt hdvd hp)

/-- C1 witness: the amended theorem applied at `N = 4`, Q15, position 1,
with the concrete constant tables. -/
theorem claim_c1_impulse_allones_witness :
    fixedCore 15 false (fun _ => (⟨2 ^ 31 - 1, 0⟩ : CFix)) (fun i => i) 1 (2 ^ 2)
        (impulseBuf 15) 1 = (if 1 < 2 ^ 2 then oneC 15 else zeroC) ∧
    fixedCore 15 true (fun _ => (⟨2 ^ 31 - 1, 0⟩ : CFix)) (fun i => i) 1 (2 ^ 2)
        (onesBuf 15) 1 = (if 1 = 0 then oneC 15 else zeroC) ∧
    floatCore true (fun _ => oneQ) (fun i => i) 1 (2 ^ 2) onesBufQ 1 =
      (if 1 = 0 then oneQ else zeroQ) :=
  ⟨(claim_c1_impulse_allones 15 2 1 (fun _ => ⟨2 ^ 31 - 1, 0⟩) (fun i => i)
      (fun _ => oneQ) (fun i => i) 1).1 (by norm_num),
   (claim_c1_impulse_allones 15 2 1 (fun _ => ⟨2 ^ 31 - 1, 0⟩) (fun i => i)
      (fun _ => oneQ) (fun i => i) 1).2.1 (by norm_num) rfl (by norm_num),
   (claim_c1_impulse_allones 15 2 1 (fun _ => ⟨2 ^ 31 - 1, 0⟩) (fun i => i)
      (fun _ => oneQ) (fun i => i) 1).2.2.2 rfl (by norm_num)⟩

/-! ## Claim C2: forward-then-inverse round trip -/

/-- `CplxFft::process` for the float engine (src/float/complex.rs lines
66-126), as status plus final buffer contents. -/
def floatProcess (n : ℕ) (tw : ℕ → CQ) (br : ℕ → ℕ) (buf : List CQ)
    (inv : Bool) : Except FftError Unit × List CQ :=
  if buf.length ≠ n then (.error .SizeMismatch, buf)
  else (.ok (),
    (List.range n).map (floatProcessBody inv tw br n (fun p => buf.getD p zeroQ)))

/-- L1 distance between two fixed-point complex buffers, measured on the
represented values. -/
def fxDistL1 (f : ℕ) (bs cs : List CFix) : ℚ :=
  (List.zipWith
    (fun u v => |fxVal f u.re - fxVal f v.re| + |fxVal f u.im - fxVal f v.im|)
    bs cs).sum

/-- Both N=2 processes in closed form: the core runs exactly one butterfly
on the pair. -/
theorem cplxFftProcess_two (frac : ℕ) (tw : ℕ → CFix) (br : ℕ → ℕ)
    (x y : CFix) (inv : Bool) :
    cplxFftProcess frac 2 tw br [x, y] inv =
      (.ok (), [(fixedBf frac inv tw 1 1 0 x y).1,
                (fixedBf frac inv tw 1 1 0 x y).2]) := rfl

theorem floatProcess_two_fwd (tw : ℕ → CQ) (br : ℕ → ℕ) (x y : CQ) :
    floatProcess 2 tw br [x, y] false =
      (.ok (), [cqAdd x (cqMul y (tw 0)), cqSub x (cqMul y (tw 0))]) := rfl

theorem floatProcess_two_inv (tw : ℕ → CQ) (br : ℕ → ℕ) (x y : CQ) :
    floatProcess 2 tw br [x, y] true =
      (.ok (), [cqScale ((2 : ℕ) : ℚ)⁻¹ (cqAdd x (cqMul y (cqConj (tw 0)))),
                cqScale ((2 : ℕ) : ℚ)⁻¹ (cqSub x (cqMul y (cqConj (tw 0))))]) := rfl

/-- Multiplying a moderate store by the Q31 constant `2^31 - 1` (the
engine's twiddle entry 0) is exact. -/
theorem fxMul31_M_exact {v : ℤ} (h1 : -(2 : ℤ) ^ 30 < v) (h2 : v ≤ 2 ^ 30) :
    fxMul twiddleFrac v (2 ^ 31 - 1) = v := by
  have hkey : v * (2 ^ 31 - 1) + 2 ^ (31 - 1) = (2 ^ 30 - v) + 2 ^ 31 * v := by
    norm_num
    ring
  have h0 : (0 : ℤ) ≤ 2 ^ 30 - v := by linarith
  have hlt : (2 : ℤ) ^ 30 - v < 2 ^ 31 := by
    have : -(2 : ℤ) ^ 30 < v := h1
    norm_num at this ⊢
    linarith
  have hshift : sshr (v * (2 ^ 31 - 1) + 2 ^ (31 - 1)) 31 = v := by
    rw [sshr, hkey, Int.add_mul_ediv_left _ _ (by positivity : (2 : ℤ) ^ 31 ≠ 0),
      Int.ediv_eq_zero_of_lt h0 hlt]
    ring
  simp only [fxMul, twiddleFrac, if_pos (by norm_num : (0 : ℕ) < 31), hshift]
  apply wrap32_eq_self
  · norm_num at h1 ⊢
    omega
  · norm_num at h2 ⊢
    omega

/-- Multiplying a store in `[-2^30, 2^30]` by the Q31 constant `2^31 - 1`
rounds up by at most one unit (and only at the left endpoint). -/
theorem fxMul31_M_close {v : ℤ} (h1 : -(2 : ℤ) ^ 30 ≤ v) (h2 : v ≤ 2 ^ 30) :
    ∃ e : ℤ, fxMul twiddleFrac v (2 ^ 31 - 1) = v + e ∧ 0 ≤ e ∧ e ≤ 1 := by
  refine ⟨(2 ^ 30 - v) / 2 ^ 31, ?_, Int.ediv_nonneg (by linarith) (by positivity), ?_⟩
  · have hkey : v * (2 ^ 31 - 1) + 2 ^ (31 - 1) = (2 ^ 30 - v) + 2 ^ 31 * v := by
      norm_num
      ring
    have he1 : (2 ^ 30 - v) / 2 ^ 31 ≤ 1 := by
      have hle : (2 : ℤ) ^ 30 - v ≤ 2 ^ 31 := by norm_num; omega
      calc (2 ^ 30 - v) / 2 ^ 31 ≤ 2 ^ 31 / 2 ^ 31 :=
            Int.ediv_le_ediv (by positivity) hle
      _ = 1 := Int.ediv_self (by positivity)
    have he0 : (0 : ℤ) ≤ (2 ^ 30 - v) / 2 ^ 31 :=
      Int.ediv_nonneg (by linarith) (by positivity)
    have hshift : sshr (v * (2 ^ 31 - 1) + 2 ^ (31 - 1)) 31 =
        v + (2 ^ 30 - v) / 2 ^ 31 := by
      rw [sshr, hkey, Int.add_mul_ediv_left _ _ (by positivity : (2 : ℤ) ^ 31 ≠ 0)]
      ring
    simp only [fxMul, twiddleFrac, if_pos (by norm_num : (0 : ℕ) < 31), hshift]
    apply wrap32_eq_self
    · norm_num at h1 he0 ⊢
      omega
    · norm_num at h2 he1 ⊢
      omega
  · have hle : (2 : ℤ) ^ 30 - v ≤ 2 ^ 31 := by norm_num; omega
    calc (2 ^ 30 - v) / 2 ^ 31 ≤ 2 ^ 31 / 2 ^ 31 :=
          Int.ediv_le_ediv (by positivity) hle
    _ = 1 := Int.ediv_self (by positivity)

theorem cfxMul_M_exact {z : CFix} (h1 : -(2 : ℤ) ^ 30 < z.re) (h2 : z.re ≤ 2 ^ 30)
    (h3 : -(2 : ℤ) ^ 30 < z.im) (h4 : z.im ≤ 2 ^ 30) :
    cfxMul 15 twiddleFrac z ⟨2 ^ 31 - 1, 0⟩ = z := by
  obtain ⟨zr, zi⟩ := z
  simp only [cfxMul, fxMul31_zero_right]
  rw [fxMul31_M_exact h1 h2, fxMul31_M_exact h3 h4, fxSub_same, fxAdd_same,
    sub_zero, zero_add]
  simp only at h1 h2 h3 h4
  congr 1
  · apply wrap32_eq_self <;> (norm_num at h1 h2 ⊢; omega)
  · apply wrap32_eq_self <;> (norm_num at h3 h4 ⊢; omega)

theorem cfxMul_M_close {z : CFix} (h1 : -(2 : ℤ) ^ 30 ≤ z.re) (h2 : z.re ≤ 2 ^ 30)
    (h3 : -(2 : ℤ) ^ 30 ≤ z.im) (h4 : z.im ≤ 2 ^ 30) :
    ∃ er ei : ℤ, cfxMul 15 twiddleFrac z ⟨2 ^ 31 - 1, 0⟩ = ⟨z.re + er, z.im + ei⟩ ∧
      0 ≤ er ∧ er ≤ 1 ∧ 0 ≤ ei ∧ ei ≤ 1 := by
  obtain ⟨zr, zi⟩ := z
  simp only at h1 h2 h3 h4
  obtain ⟨er, her, her0, her1⟩ := fxMul31_M_close h1 h2
  obtain ⟨ei, hei, hei0, hei1⟩ := fxMul31_M_close h3 h4
  refine ⟨er, ei, ?_, her0, her1, hei0, hei1⟩
  simp only [cfxMul, fxMul31_zero_right]
  rw [her, hei, fxSub_same, fxAdd_same, sub_zero, zero_add]
  congr 1
  · apply wrap32_eq_self <;> (norm_num at h1 h2 her0 her1 ⊢; omega)
  · apply wrap32_eq_self <;> (norm_num at h3 h4 hei0 hei1 ⊢; omega)

theorem fxHalf_double_add {a e : ℤ} (h0 : 0 ≤ e) (h1 : e ≤ 1) :
    fxHalf (2 * a + e) = a := by
  rw [fxHalf, sshr, pow_one]
  omega

theorem fxHalf_double_sub {b e : ℤ} (h0 : 0 ≤ e) (h1 : e ≤ 1) :
    b - 1 ≤ fxHalf (2 * b - e) ∧ fxHalf (2 * b - e) ≤ b := by
  rw [fxHalf, sshr, pow_one]
  omega

theorem fxVal_dist_le {u v : ℤ} (f : ℕ) (h : |u - v| ≤ 1) :
    |fxVal f u - fxVal f v| ≤ 1 / 2 ^ f := by
  rw [fxVal, fxVal, div_sub_div_same, abs_div,
    abs_of_pos (by positivity : (0:ℚ) < 2 ^ f)]
  have hc : |(u : ℚ) - v| ≤ 1 := by
    have hcast : ((|u - v| : ℤ) : ℚ) ≤ 1 := by exact_mod_cast h
    rwa [Int.cast_abs, Int.cast_sub] at hcast
  exact (div_le_div_iff_of_pos_right (by positivity : (0:ℚ) < 2 ^ f)).mpr hc

theorem cqMul_one_right (z : CQ) : cqMul z oneQ = z := by
  obtain ⟨zr, zi⟩ := z
  simp [cqMul, oneQ]

theorem cqConj_one : cqConj oneQ = oneQ := by
  simp [cqConj, oneQ]

/-- C2 counterexample.  A length-valid Q15 buffer whose stores are at the
`i32` maximum: the forward transform wraps, and the forward-then-inverse
round trip lands at L1 distance about `2^17` from the original — far above
the claimed `0.1`.  Tables as built by the engine for `N = 2`. -/
theorem claim_c2_counterexample :
    (cplxFftProcess 15 2
        (fun k => if k = 0 then (⟨2 ^ 31 - 1, 0⟩ : CFix) else zeroC)
        (fun i => (precomputeBitrev 2).getD i 0)
        ((cplxFftProcess 15 2
            (fun k => if k = 0 then (⟨2 ^ 31 - 1, 0⟩ : CFix) else zeroC)
            (fun i => (precomputeBitrev 2).getD i 0)
            [⟨2 ^ 31 - 1, 0⟩, ⟨2 ^ 31 - 1, 0⟩] false).2) true).2 =
      [⟨-1, 0⟩, ⟨-2, 0⟩] ∧
    ¬ fxDistL1 15 [⟨-1, 0⟩, ⟨-2, 0⟩] [⟨2 ^ 31 - 1, 0⟩, ⟨2 ^ 31 - 1, 0⟩] < 1 / 10 := by
  constructor
  · decide
  · simp only [fxDistL1, List.zipWith_cons_cons, List.zipWith_nil_right,
      List.sum_cons, List.sum_nil, fxVal]
    norm_num
    rw [abs_of_pos (by norm_num : (0:ℚ) < 2147483649 / 32768)]
    norm_num

/-- C2 (amended).  At `N = 2`: the float engine's forward-then-inverse
round trip reconstructs the buffer exactly (exact-arithmetic embedding),
and the fixed Q15 round trip of a buffer with headroom (stores within
`±2^29`) reconstructs it to within one store unit per component, so the L1
distance is below the claimed `0.1`; without the headroom restriction the
fixed-point bound fails (see the counterexample).  The twiddle hypotheses
are the entry-0 values the engines precompute. -/
theorem claim_c2_roundtrip_n2 (a b : CFix) (tw : ℕ → CFix) (cbr : ℕ → ℕ)
    (htw : tw 0 = ⟨2 ^ 31 - 1, 0⟩)
    (ha1 : |a.re| ≤ 2 ^ 29) (ha2 : |a.im| ≤ 2 ^ 29)
    (hb1 : |b.re| ≤ 2 ^ 29) (hb2 : |b.im| ≤ 2 ^ 29)
    (qtw : ℕ → CQ) (qbr : ℕ → ℕ) (hqtw : qtw 0 = oneQ) (za zb : CQ) :
    fxDistL1 15 ((cplxFftProcess 15 2 tw cbr
        ((cplxFftProcess 15 2 tw cbr [a, b] false).2) true).2) [a, b] < 1 / 10 ∧
    (floatProcess 2 qtw qbr
        ((floatProcess 2 qtw qbr [za, zb] false).2) true).2 = [za, zb] := by
  constructor
  · obtain ⟨ar, ai⟩ := a
    obtain ⟨br2, bi⟩ := b
    simp only at ha1 ha2 hb1 hb2
    rw [abs_le] at ha1 ha2 hb1 hb2
    -- forward: the twiddle multiply is exact, and the butterfly sums are
    -- wrap-free
    have hidx : (0 : ℕ) * 1 * 1 = 0 := rfl
    have hmulb : cfxMul 15 twiddleFrac ⟨br2, bi⟩ (tw 0) = ⟨br2, bi⟩ := by
      rw [htw]
      exact cfxMul_M_exact (by norm_num; omega) (by norm_num; omega)
        (by norm_num; omega) (by norm_num; omega)
    have hfwd : cplxFftProcess 15 2 tw cbr [⟨ar, ai⟩, ⟨br2, bi⟩] false =
        (.ok (), [⟨ar + br2, ai + bi⟩, ⟨ar - br2, ai - bi⟩]) := by
      rw [cplxFftProcess_two, fixedBf_false, hidx, hmulb]
      have hre1 : fxAdd 15 15 ar br2 = ar + br2 := by
        rw [fxAdd_same]
        apply wrap32_eq_self <;> (norm_num; omega)
      have him1 : fxAdd 15 15 ai bi = ai + bi := by
        rw [fxAdd_same]
        apply wrap32_eq_self <;> (norm_num; omega)
      have hre2 : fxSub 15 15 ar br2 = ar - br2 := by
        rw [fxSub_same]
        apply wrap32_eq_self <;> (norm_num; omega)
      have him2 : fxSub 15 15 ai bi = ai - bi := by
        rw [fxSub_same]
        apply wrap32_eq_self <;> (norm_num; omega)
      simp only [cfxAdd, cfxSub, hre1, him1, hre2, him2]
    rw [hfwd]
    -- inverse: the conjugated twiddle is the same constant; the multiply
    -- rounds up by at most one unit per component
    obtain ⟨er, ei, hmul2, her0, her1, hei0, hei1⟩ :=
      cfxMul_M_close (z := ⟨ar - br2, ai - bi⟩)
        (by norm_num; omega) (by norm_num; omega) (by norm_num; omega)
        (by norm_num; omega)
    have hinv : (cplxFftProcess 15 2 tw cbr
        [⟨ar + br2, ai + bi⟩, ⟨ar - br2, ai - bi⟩] true).2 =
        [⟨ar, ai⟩, ⟨fxHalf (2 * br2 - er), fxHalf (2 * bi - ei)⟩] := by
      rw [cplxFftProcess_two, fixedBf_true, hidx, htw, cfxConj_M, hmul2]
      have hv1re : fxAdd 15 15 (ar + br2) (ar - br2 + er) = 2 * ar + er := by
        rw [fxAdd_same]
        have harep : ar + br2 + (ar - br2 + er) = 2 * ar + er := by ring
        rw [harep]
        apply wrap32_eq_self <;> (norm_num; omega)
      have hv1im : fxAdd 15 15 (ai + bi) (ai - bi + ei) = 2 * ai + ei := by
        rw [fxAdd_same]
        have harep : ai + bi + (ai - bi + ei) = 2 * ai + ei := by ring
        rw [harep]
        apply wrap32_eq_self <;> (norm_num; omega)
      have hv2re : fxSub 15 15 (ar + br2) (ar - br2 + er) = 2 * br2 - er := by
        rw [fxSub_same]
        have hbrep : ar + br2 - (ar - br2 + er) = 2 * br2 - er := by ring
        rw [hbrep]
        apply wrap32_eq_self <;> (norm_num; omega)
      have hv2im : fxSub 15 15 (ai + bi) (ai - bi + ei) = 2 * bi - ei := by
        rw [fxSub_same]
        have hbrep : ai + bi - (ai - bi + ei) = 2 * bi - ei := by ring
        rw [hbrep]
        apply wrap32_eq_self <;> (norm_num; omega)
      simp only [cfxAdd, cfxSub, cfxScaleHalf, hv1re, hv1im, hv2re, hv2im,
        fxHalf_double_add her0 her1, fxHalf_double_add hei0 hei1]
    rw [hinv]
    -- the distance: zero on the first element, at most one unit per
    -- component on the second
    have hdre := fxHalf_double_sub (b := br2) her0 her1
    have hdim := fxHalf_double_sub (b := bi) hei0 hei1
    simp only [fxDistL1, List.zipWith_cons_cons, List.zipWith_nil_right,
      List.sum_cons, List.sum_nil, add_zero]
    have hz : |fxVal 15 ar - fxVal 15 ar| + |fxVal 15 ai - fxVal 15 ai| = 0 := by
      simp
    rw [hz]
    have h1 : |fxVal 15 (fxHalf (2 * br2 - er)) - fxVal 15 br2| ≤ 1 / 2 ^ 15 :=
      fxVal_dist_le 15 (by rw [abs_le]; omega)
    have h2 : |fxVal 15 (fxHalf (2 * bi - ei)) - fxVal 15 bi| ≤ 1 / 2 ^ 15 :=
      fxVal_dist_le 15 (by rw [abs_le]; omega)
    calc 0 + (|fxVal 15 (fxHalf (2 * br2 - er)) - fxVal 15 br2| +
          |fxVal 15 (fxHalf (2 * bi - ei)) - fxVal 15 bi|) ≤
        0 + (1 / 2 ^ 15 + 1 / 2 ^ 15) := by linarith
    _ < 1 / 10 := by norm_num
  · rw [floatProcess_two_fwd, hqtw, cqMul_one_right]
    rw [floatProcess_two_inv, hqtw, cqConj_one, cqMul_one_right]
    obtain ⟨xr, xi⟩ := za
    obtain ⟨yr, yi⟩ := zb
    have hc2 : ((2 : ℕ) : ℚ) = 2 := by norm_num
    simp only [cqAdd, cqSub, cqScale, hc2, List.cons.injEq, CQ.mk.injEq, and_true]
    refine ⟨⟨?_, ?_⟩, ?_, ?_⟩ <;> ring

/-- C2 witness: the amended round trip at a concrete buffer. -/
theorem claim_c2_roundtrip_n2_witness :
    fxDistL1 15 ((cplxFftProcess 15 2
        (fun k => if k = 0 then (⟨2 ^ 31 - 1, 0⟩ : CFix) else zeroC) (fun i => i)
        ((cplxFftProcess 15 2
            (fun k => if k = 0 then (⟨2 ^ 31 - 1, 0⟩ : CFix) else zeroC)
            (fun i => i) [⟨32768, 0⟩, ⟨99, -5⟩] false).2) true).2)
      [⟨32768, 0⟩, ⟨99, -5⟩] < 1 / 10 ∧
    (floatProcess 2 (fun _ => oneQ) (fun i => i)
        ((floatProcess 2 (fun _ => oneQ) (fun i => i) [⟨1, 0⟩, ⟨0, 3⟩] false).2)
        true).2 = [⟨1, 0⟩, ⟨0, 3⟩] := by
  have h := claim_c2_roundtrip_n2 ⟨32768, 0⟩ ⟨99, -5⟩
    (fun k => if k = 0 then (⟨2 ^ 31 - 1, 0⟩ : CFix) else zeroC) (fun i => i) rfl
    (by norm_num) (by norm_num) (by norm_num) (by norm_num)
    (fun _ => oneQ) (fun i => i) rfl ⟨1, 0⟩ ⟨0, 3⟩
  exact h

/-! ## The fixed real-FFT adapter (src/fixed/real.rs) -/

/-- Rust `usize::is_power_of_two`. -/
def isPow2 (n : ℕ) : Bool := decide (0 < n) && (n.land (n - 1) == 0)

/-- The construction checks of the fixed `RealFft::new`
(src/fixed/real.rs lines 10-34): `n` must be a power of two and both
caller tables must hold at least `n/2` entries. -/
def realFftNewCheck (twLen brLen n : ℕ) : Except FftError Unit :=
  if ¬ isPow2 n then .error .NotPowerOfTwo
  else if twLen < n / 2 ∨ brLen < n / 2 then .error .BufferTooSmall
  else .ok ()

/-- The unweaving post-processing of `RealFft::rfft`
(src/fixed/real.rs lines 63-121), on the `n/2`-point complex view:
index 0 packs DC and Nyquist; index `n/4` is replaced by its own
conjugate; the main loop rotates the odd part by `i` (with wrapping
negation) and writes the Hermitian pair. -/
def rfftUnweave (frac : ℕ) (tw : ℕ → CFix) (nHalf : ℕ) (cb : ℕ → CFix) : ℕ → CFix :=
  let v := cb 0
  let cb1 := upd cb 0 ⟨fxAdd frac frac v.re v.im, fxSub frac frac v.re v.im⟩
  let nq := nHalf / 2
  let cb2 := upd cb1 nq (cfxConj (cb1 nq))
  (List.range' 1 (nq - 1)).foldl (fun cb i =>
    let ib := nHalf - i
    let va := cb i
    let vbc := cfxConj (cb ib)
    let even := cfxScaleHalf (cfxAdd frac frac va vbc)
    let odd := cfxScaleHalf (cfxSub frac frac va vbc)
    let t1 := cfxMul frac twiddleFrac odd (tw i)
    let tt := rotate90 t1
    let cb3 := upd cb i (cfxSub frac frac even tt)
    upd cb3 ib (cfxConj (cfxAdd frac frac even tt))) cb2

/-- The reweaving pre-processing of `RealFft::irfft`
(src/fixed/real.rs lines 137-178). -/
def rfftReweave (frac : ℕ) (tw : ℕ → CFix) (nHalf : ℕ) (cb : ℕ → CFix) : ℕ → CFix :=
  let v := cb 0
  let cb1 := upd cb 0 ⟨fxHalf (fxAdd frac frac v.re v.im), fxHalf (fxSub frac frac v.re v.im)⟩
  let nq := nHalf / 2
  let cb2 := upd cb1 nq (cfxConj (cb1 nq))
  (List.range' 1 (nq - 1)).foldl (fun cb i =>
    let ib := nHalf - i
    let va := cb i
    let vbc := cfxConj (cb ib)
    let even := cfxScaleHalf (cfxAdd frac frac va vbc)
    let odd := cfxScaleHalf (cfxSub frac frac va vbc)
    let t1 := cfxMul frac twiddleFrac odd (cfxConj (tw i))
    let tt := rotate90 t1
    let cb3 := upd cb i (cfxAdd frac frac even tt)
    upd cb3 ib (cfxConj (cfxSub frac frac even tt))) cb2

/-- The zero-copy aliasing of the `n` real stores as `n/2` complex values
(even positions become real parts, odd positions imaginary parts). -/
def realToC (rl : List ℤ) : ℕ → CFix :=
  fun p => ⟨rl.getD (2 * p) 0, rl.getD (2 * p + 1) 0⟩

/-- Read the `n` real stores back out of the complex view. -/
def cToReal (n : ℕ) (cb : ℕ → CFix) : List ℤ :=
  (List.range n).map (fun q => if q % 2 = 0 then (cb (q / 2)).re else (cb (q / 2)).im)

/-- `RealFft::rfft::<FRAC>` (src/fixed/real.rs lines 50-124): length check
first (before any mutation), then the `n/2`-point forward core at twiddle
stride 2, then unweaving. -/
def realFftRfft (frac n : ℕ) (tw : ℕ → CFix) (br : ℕ → ℕ) (rl : List ℤ) :
    Except FftError Unit × List ℤ :=
  if rl.length ≠ n then (.error .SizeMismatch, rl)
  else
    (.ok (), cToReal n (rfftUnweave frac tw (n / 2)
      (fixedCore frac false tw br 2 (n / 2) (realToC rl))))

/-- `RealFft::irfft::<FRAC>` (src/fixed/real.rs lines 126-185): length
check first, then reweaving, then the `n/2`-point inverse core. -/
def realFftIrfft (frac n : ℕ) (tw : ℕ → CFix) (br : ℕ → ℕ) (rl : List ℤ) :
    Except FftError Unit × List ℤ :=
  if rl.length ≠ n then (.error .SizeMismatch, rl)
  else
    (.ok (), cToReal n (fixedCore frac true tw br 2 (n / 2)
      (rfftReweave frac tw (n / 2) (realToC rl))))

/-- `RealFft::process` (src/fixed/real.rs lines 187-193). -/
def realFftProcess (frac n : ℕ) (tw : ℕ → CFix) (br : ℕ → ℕ) (rl : List ℤ)
    (inverse : Bool) : Except FftError Unit × List ℤ :=
  if inverse then realFftIrfft frac n tw br rl else realFftRfft frac n tw br rl

/-! ## Claim C10: the fixed real FFT at N = 2 -/

/-- C10.  `N = 2` passes the real-FFT construction validation (2 is a power
of two and the `n/2 = 1`-entry tables suffice), and the forward process on
`[r0, r1]` succeeds and writes `buffer[0] = r0 + r1` and `buffer[1]` equal
to the *saturating negation* of `r0 - r1`: the self-conjugate-point step at
index `N/4 = 0` conjugates the freshly written DC/Nyquist pair, so index 1
holds the negated Nyquist value rather than `r0 - r1` itself. -/
theorem claim_c10_rfft_n2 (frac : ℕ) (tw : ℕ → CFix) (br : ℕ → ℕ) (r0 r1 : ℤ)
    (twLen brLen : ℕ) (htw : 1 ≤ twLen) (hbr : 1 ≤ brLen) :
    realFftNewCheck twLen brLen 2 = .ok () ∧
    realFftProcess frac 2 tw br [r0, r1] false =
      (.ok (), [fxAdd frac frac r0 r1, satNeg (fxSub frac frac r0 r1)]) := by
  constructor
  · rw [realFftNewCheck, if_neg (by decide : ¬ ¬ isPow2 2 = true),
      if_neg (by omega : ¬ (twLen < 2 / 2 ∨ brLen < 2 / 2))]
  · rfl

/-- C10 witness: the theorem at concrete stores and tables. -/
theorem claim_c10_rfft_n2_witness :
    realFftNewCheck 1 1 2 = .ok () ∧
    realFftProcess 15 2 (fun _ => zeroC) (fun i => i) [7, 3] false =
      (.ok (), [fxAdd 15 15 7 3, satNeg (fxSub 15 15 7 3)]) :=
  claim_c10_rfft_n2 15 (fun _ => zeroC) (fun i => i) 7 3 1 1 le_rfl le_rfl

/-! ## Claim C4: process error semantics -/

lemma realFftProcess_false (frac n : ℕ) (tw : ℕ → CFix) (br : ℕ → ℕ) (rl : List ℤ) :
    realFftProcess frac n tw br rl false = realFftRfft frac n tw br rl := rfl

lemma realFftProcess_true (frac n : ℕ) (tw : ℕ → CFix) (br : ℕ → ℕ) (rl : List ℤ) :
    realFftProcess frac n tw br rl true = realFftIrfft frac n tw br rl := rfl

lemma realFft_branch_err {frac n : ℕ} {tw : ℕ → CFix} {br : ℕ → ℕ} {rl : List ℤ}
    (inv : Bool) (h : rl.length ≠ n) :
    realFftProcess frac n tw br rl inv = (.error .SizeMismatch, rl) := by
  cases inv
  · rw [realFftProcess_false, realFftRfft, if_pos h]
  · rw [realFftProcess_true, realFftIrfft, if_pos h]

lemma realFft_branch_ok {frac n : ℕ} {tw : ℕ → CFix} {br : ℕ → ℕ} {rl : List ℤ}
    (inv : Bool) (h : rl.length = n) :
    (realFftProcess frac n tw br rl inv).1 = .ok () := by
  cases inv
  · rw [realFftProcess_false, realFftRfft, if_neg (by omega)]
  · rw [realFftProcess_true, realFftIrfft, if_neg (by omega)]

/-- C4.  For the fixed complex engine's `process` and the fixed real
adapter's `process`: the call returns `SizeMismatch` exactly when the
buffer length differs from the configured `n`, `SizeMismatch` is the only
possible error, a failed call leaves the buffer contents untouched (the
check precedes any mutation), and a successful call performs the whole
transform in place.  (For the real adapter the success conjunct assumes
`2 ≤ n`: with `n = 1` — which construction accepts — the Rust body
panics inside the core instead of completing, so the model's success value
is only claimed for `n ≥ 2`.) -/
theorem claim_c4_process_validation (frac n : ℕ) (tw : ℕ → CFix) (br : ℕ → ℕ)
    (buf : List CFix) (inv : Bool) (rl : List ℤ) :
    ((cplxFftProcess frac n tw br buf inv).1 = .error .SizeMismatch ↔
      buf.length ≠ n) ∧
    (∀ e, (cplxFftProcess frac n tw br buf inv).1 = .error e → e = .SizeMismatch) ∧
    (buf.length ≠ n → (cplxFftProcess frac n tw br buf inv).2 = buf) ∧
    (buf.length = n → cplxFftProcess frac n tw br buf inv =
      (.ok (), ofFun n (fixedCore frac inv tw br 1 n (toFun buf)))) ∧
    ((realFftProcess frac n tw br rl inv).1 = .error .SizeMismatch ↔
      rl.length ≠ n) ∧
    (∀ e, (realFftProcess frac n tw br rl inv).1 = .error e → e = .SizeMismatch) ∧
    (rl.length ≠ n → (realFftProcess frac n tw br rl inv).2 = rl) ∧
    (rl.length = n → 2 ≤ n → (realFftProcess frac n tw br rl inv).1 = .ok ()) := by
  refine ⟨?_, ?_, ?_, ?_, ?_, ?_, ?_, ?_⟩
  · rw [cplxFftProcess]
    by_cases h : buf.length = n
    · rw [if_neg (by omega)]
      simp [h]
    · rw [if_pos (by omega)]
      simp [h]
  · intro e
    rw [cplxFftProcess]
    by_cases h : buf.length = n
    · rw [if_neg (by omega)]
      intro hc
      exact absurd hc (by simp)
    · rw [if_pos (by omega)]
      intro hc
      simpa using hc.symm
  · intro h
    rw [cplxFftProcess, if_pos h]
  · intro h
    rw [cplxFftProcess, if_neg (by omega)]
  · constructor
    · intro hc h
      rw [realFft_branch_ok inv h] at hc
      exact absurd hc (by simp)
    · intro h
      rw [realFft_branch_err inv h]
  · intro e hc
    by_cases h : rl.length = n
    · rw [realFft_branch_ok inv h] at hc
      exact absurd hc (by simp)
    · rw [realFft_branch_err inv h] at hc
      simpa using hc.symm
  · intro h
    rw [realFft_branch_err inv h]
  · intro h _
    exact realFft_branch_ok inv h

/-- C4 witness: a failing call (wrong length) leaves the buffer unchanged
and reports `SizeMismatch`; a success case returns `ok`. -/
theorem claim_c4_process_validation_witness :
    (cplxFftProcess 15 2 (fun _ => zeroC) (fun i => i) [⟨5, 6⟩] false).2 =
      [⟨5, 6⟩] ∧
    ((cplxFftProcess 15 2 (fun _ => zeroC) (fun i => i) [⟨5, 6⟩] false).1 =
      .error .SizeMismatch ↔ ([(⟨5, 6⟩ : CFix)].length ≠ 2)) ∧
    (realFftProcess 15 2 (fun _ => zeroC) (fun i => i) [4, 9] false).1 = .ok () :=
  ⟨(claim_c4_process_validation 15 2 (fun _ => zeroC) (fun i => i) [⟨5, 6⟩]
      false [4, 9]).2.2.1 (by norm_num),
   (claim_c4_process_validation 15 2 (fun _ => zeroC) (fun i => i) [⟨5, 6⟩]
      false [4, 9]).1,
   (claim_c4_process_validation 15 2 (fun _ => zeroC) (fun i => i) [⟨5, 6⟩]
      false [4, 9]).2.2.2.2.2.2.2 (by norm_num) (by norm_num)⟩

/-! ## Claim C9: spectrum pack/unpack round trip (src/common.rs lines 96-139)

The packing helpers are generic over the `FftNum` scalar; `neg` stands for
the trait's `negate` (exact negation for `f32`; for the fixed types the
`FftNum` impl lives in the crate's `fixed/math.rs`, which is absent from
this tree, so its saturating `negate` is modelled after the spec).  Every
slice access is bounds-checked: an out-of-range index is the Rust panic,
`none`.  The output buffer is a function plus its asserted length. -/

/-- Rust slice read `l[i]`: panics (here `none`) out of range. -/
def getO {α : Type} (l : List α) (i : ℕ) : Option α := l[i]?

/-- Rust slice write `o[i] = v` on a function buffer of asserted length
`len`: panics (here `none`) out of range. -/
def setF {α : Type} (len : ℕ) (f : ℕ → α) (i : ℕ) (v : α) : Option (ℕ → α) :=
  if i < len then some (upd f i v) else none

/-- `unpack_rfft_spectrum` (src/common.rs lines 99-122): DC to slot 0,
Nyquist (packed index 1) to slot `n/2`, then each positive frequency `k`
together with its Hermitian mirror `n - k` carrying the negated imaginary
part.  The two `assert_eq!` panics are the first two `none`s. -/
def unpackRfft {α : Type} (neg : α → α) (zero : α) (packed : List α)
    (output : ℕ → α × α) (outLen : ℕ) : Option (ℕ → α × α) :=
  if outLen ≠ packed.length then none
  else if packed.length % 2 ≠ 0 then none
  else do
    let p0 ← getO packed 0
    let o1 ← setF outLen output 0 (p0, zero)
    let p1 ← getO packed 1
    let o2 ← setF outLen o1 (packed.length / 2) (p1, zero)
    (List.range' 1 (packed.length / 2 - 1)).foldlM (fun o k => do
      let re ← getO packed (2 * k)
      let im ← getO packed (2 * k + 1)
      let o3 ← setF outLen o k (re, im)
      setF outLen o3 (packed.length - k) (re, neg im)) o2

/-- `pack_rfft_spectrum` (src/common.rs lines 126-139): real parts of DC
and of slot `n/2` into the first two outputs, then the interleaved
positive frequencies.  Only slots `0`, `n/2` and `1 ≤ k < n/2` are read. -/
def packRfft {α : Type} (full : List (α × α)) (output : ℕ → α) (outLen : ℕ) :
    Option (ℕ → α) :=
  if outLen ≠ full.length then none
  else do
    let c0 ← getO full 0
    let o1 ← setF outLen output 0 c0.1
    let cn ← getO full (full.length / 2)
    let o2 ← setF outLen o1 1 cn.1
    (List.range' 1 (full.length / 2 - 1)).foldlM (fun o k => do
      let ck ← getO full k
      let o3 ← setF outLen o (2 * k) ck.1
      setF outLen o3 (2 * k + 1) ck.2) o2

/-- Run `unpack_rfft_spectrum` into a freshly allocated (zeroed) output of
the right size and collect the result as a list. -/
def unpackL {α : Type} (neg : α → α) (zero : α) (packed : List α) :
    Option (List (α × α)) :=
  (unpackRfft neg zero packed (fun _ => (zero, zero)) packed.length).map
    (fun f => (List.range packed.length).map f)

/-- Run `pack_rfft_spectrum` into a freshly allocated (zeroed) output of
the right size and collect the result as a list. -/
def packL {α : Type} (zero : α) (full : List (α × α)) : Option (List α) :=
  (packRfft full (fun _ => zero) full.length).map
    (fun g => (List.range full.length).map g)

lemma option_bind_some {α β : Type} (a : α) (f : α → Option β) :
    (some a >>= f) = f a := rfl

lemma getO_eq {α : Type} {l : List α} {i : ℕ} (h : i < l.length) (d : α) :
    getO l i = some (l.getD i d) := by
  rw [getO, List.getElem?_eq_getElem h, List.getD_eq_getElem l d h]

lemma setF_eq {α : Type} {len i : ℕ} (f : ℕ → α) (v : α) (h : i < len) :
    setF len f i v = some (upd f i v) := if_pos h

lemma foldlM_eq_foldl {β γ : Type} (step : β → γ → Option β) (pstep : β → γ → β)
    (l : List γ) (h : ∀ b k, k ∈ l → step b k = some (pstep b k)) (b : β) :
    l.foldlM step b = some (l.foldl pstep b) := by
  induction l generalizing b with
  | nil => rfl
  | cons x xs ih =>
    rw [List.foldlM_cons, h b x (List.mem_cons_self x xs), List.foldl_cons]
    exact ih (fun b k hk => h b k (List.mem_cons_of_mem x hk)) (pstep b x)

lemma getD_map_range {α : Type} (F : ℕ → α) {n k : ℕ} (h : k < n) (d : α) :
    ((List.range n).map F).getD k d = F k := by
  rw [List.getD_eq_getElem?_getD, List.getElem?_map, List.getElem?_range h]
  rfl

/-- Pointwise description of the unpacking loop on positions up to `n/2`:
position `j` holds the interleaved pair once iteration `j` has run, and is
otherwise untouched (the mirror writes land strictly above `n/2`). -/
lemma unpack_fold_apply {α : Type} (neg : α → α) (zero : α) (packed : List α)
    (he : packed.length % 2 = 0) :
    ∀ (cnt s : ℕ) (f : ℕ → α × α), 1 ≤ s → s + cnt ≤ packed.length / 2 →
      ∀ j, j ≤ packed.length / 2 →
        ((List.range' s cnt).foldl
          (fun o k =>
            upd (upd o k (packed.getD (2 * k) zero, packed.getD (2 * k + 1) zero))
              (packed.length - k)
              (packed.getD (2 * k) zero, neg (packed.getD (2 * k + 1) zero))) f) j =
        if s ≤ j ∧ j < s + cnt then
          (packed.getD (2 * j) zero, packed.getD (2 * j + 1) zero)
        else f j := by
  intro cnt
  induction cnt with
  | zero =>
    intro s f hs hb j hj
    rw [if_neg (by omega), List.range'_zero, List.foldl_nil]
  | succ c ih =>
    intro s f hs hb j hj
    rw [List.range'_succ, List.foldl_cons,
      ih (s + 1) _ (by omega) (by omega) j hj]
    by_cases hcase : s + 1 ≤ j ∧ j < s + 1 + c
    · rw [if_pos hcase, if_pos (by omega)]
    · rw [if_neg hcase]
      have hns : packed.length / 2 < packed.length - s := by omega
      by_cases hjs : j = s
      · subst hjs
        rw [if_pos (by omega), upd_other _ _ _ (by omega), upd_self]
      · rw [if_neg (by omega), upd_other _ _ _ (by omega),
          upd_other _ _ _ hjs]

/-- Pointwise description of the packing loop: position `j` receives the
real or imaginary part of slot `j / 2` once iteration `j / 2` has run. -/
lemma pack_fold_apply {α : Type} (zero : α) (full : List (α × α)) :
    ∀ (cnt s : ℕ) (g : ℕ → α), 1 ≤ s →
      ∀ j,
        ((List.range' s cnt).foldl
          (fun o k =>
            upd (upd o (2 * k) (full.getD k (zero, zero)).1) (2 * k + 1)
              (full.getD k (zero, zero)).2) g) j =
        if 2 * s ≤ j ∧ j < 2 * (s + cnt) then
          (if j % 2 = 0 then (full.getD (j / 2) (zero, zero)).1
            else (full.getD (j / 2) (zero, zero)).2)
        else g j := by
  intro cnt
  induction cnt with
  | zero =>
    intro s g hs j
    rw [if_neg (by omega), List.range'_zero, List.foldl_nil]
  | succ c ih =>
    intro s g hs j
    rw [List.range'_succ, List.foldl_cons, ih (s + 1) _ (by omega) j]
    by_cases hcase : 2 * (s + 1) ≤ j ∧ j < 2 * (s + 1 + c)
    · rw [if_pos hcase,
        if_pos (show 2 * s ≤ j ∧ j < 2 * (s + (c + 1)) by omega)]
    · rw [if_neg hcase]
      by_cases hj0 : j = 2 * s
      · subst hj0
        rw [if_pos (by omega), upd_other _ _ _ (by omega), upd_self,
          if_pos (by omega : 2 * s % 2 = 0),
          (by omega : 2 * s / 2 = s)]
      · by_cases hj1 : j = 2 * s + 1
        · subst hj1
          rw [if_pos (by omega), upd_self,
            if_neg (by omega : ¬ (2 * s + 1) % 2 = 0),
            (by omega : (2 * s + 1) / 2 = s)]
        · rw [if_neg (by omega), upd_other _ _ _ hj1, upd_other _ _ _ hj0]

/-- Unpacking an even-length input of length at least 2 succeeds (all the
Rust accesses are in range), producing the loop fold over the seeded
output. -/
lemma unpackRfft_eq {α : Type} (neg : α → α) (zero : α) (packed : List α)
    (h2 : 2 ≤ packed.length) (he : packed.length % 2 = 0) :
    unpackRfft neg zero packed (fun _ => (zero, zero)) packed.length =
      some ((List.range' 1 (packed.length / 2 - 1)).foldl
        (fun o k =>
          upd (upd o k (packed.getD (2 * k) zero, packed.getD (2 * k + 1) zero))
            (packed.length - k)
            (packed.getD (2 * k) zero, neg (packed.getD (2 * k + 1) zero)))
        (upd (upd (fun _ => (zero, zero)) 0 (packed.getD 0 zero, zero))
          (packed.length / 2) (packed.getD 1 zero, zero))) := by
  rw [unpackRfft, if_neg (by omega), if_neg (by omega)]
  simp only [getO_eq (show 0 < packed.length by omega) zero,
    getO_eq (show 1 < packed.length by omega) zero,
    setF_eq _ _ (show 0 < packed.length by omega),
    setF_eq _ _ (show packed.length / 2 < packed.length by omega),
    option_bind_some]
  refine foldlM_eq_foldl _ _ _ ?_ _
  intro o k hk
  have hk' := List.mem_range'_1.mp hk
  simp only [getO_eq (show 2 * k < packed.length by omega) zero,
    getO_eq (show 2 * k + 1 < packed.length by omega) zero,
    setF_eq _ _ (show k < packed.length by omega),
    setF_eq _ _ (show packed.length - k < packed.length by omega),
    option_bind_some]

/-- Values of the unpacked spectrum on the lower half: slot 0 holds DC,
slot `n/2` holds Nyquist, and slots in between hold the interleaved
pairs. -/
lemma unpack_values {α : Type} (neg : α → α) (zero : α) (packed : List α)
    (h2 : 2 ≤ packed.length) (he : packed.length % 2 = 0) :
    ∀ j, j ≤ packed.length / 2 →
      ((List.range' 1 (packed.length / 2 - 1)).foldl
        (fun o k =>
          upd (upd o k (packed.getD (2 * k) zero, packed.getD (2 * k + 1) zero))
            (packed.length - k)
            (packed.getD (2 * k) zero, neg (packed.getD (2 * k + 1) zero)))
        (upd (upd (fun _ => (zero, zero)) 0 (packed.getD 0 zero, zero))
          (packed.length / 2) (packed.getD 1 zero, zero))) j =
      if j = 0 then (packed.getD 0 zero, zero)
      else if j = packed.length / 2 then (packed.getD 1 zero, zero)
      else (packed.getD (2 * j) zero, packed.getD (2 * j + 1) zero) := by
  intro j hj
  rw [unpack_fold_apply neg zero packed he _ 1 _ le_rfl (by omega) j hj]
  by_cases hj0 : j = 0
  · subst hj0
    rw [if_neg (by omega), if_pos rfl, upd_other _ _ _ (by omega), upd_self]
  · by_cases hjh : j = packed.length / 2
    · subst hjh
      rw [if_neg (by omega), if_neg hj0, if_pos rfl, upd_self]
    · rw [if_pos (by omega), if_neg hj0, if_neg hjh]

/-- Packing a spectrum of length at least 2 into a fresh output of the
same length succeeds, producing the loop fold over the seeded output. -/
lemma packRfft_eq {α : Type} (zero : α) (full : List (α × α)) (outLen : ℕ)
    (h2 : 2 ≤ full.length) (hlen : outLen = full.length) :
    packRfft full (fun _ => zero) outLen =
      some ((List.range' 1 (full.length / 2 - 1)).foldl
        (fun o k =>
          upd (upd o (2 * k) (full.getD k (zero, zero)).1) (2 * k + 1)
            (full.getD k (zero, zero)).2)
        (upd (upd (fun _ => zero) 0 (full.getD 0 (zero, zero)).1) 1
          (full.getD (full.length / 2) (zero, zero)).1)) := by
  subst hlen
  rw [packRfft, if_neg (by omega)]
  simp only [getO_eq (show 0 < full.length by omega) (zero, zero),
    getO_eq (show full.length / 2 < full.length by omega) (zero, zero),
    setF_eq _ _ (show 0 < full.length by omega),
    setF_eq _ _ (show 1 < full.length by omega),
    option_bind_some]
  refine foldlM_eq_foldl _ _ _ ?_ _
  intro o k hk
  have hk' := List.mem_range'_1.mp hk
  simp only [getO_eq (show k < full.length by omega) (zero, zero),
    setF_eq _ _ (show 2 * k < full.length by omega),
    setF_eq _ _ (show 2 * k + 1 < full.length by omega),
    option_bind_some]

lemma length_map_range {α : Type} (F : ℕ → α) (n : ℕ) :
    ((List.range n).map F).length = n := by
  rw [List.length_map, List.length_range]

lemma fst_pair {α : Type} (a b : α) : (Prod.mk a b).1 = a := rfl

lemma snd_pair {α : Type} (a b : α) : (Prod.mk a b).2 = b := rfl

/-- The generic pack-after-unpack round trip: for any scalar type with any
negation, an even-length input of length at least 2 comes back *exactly*. -/
lemma pack_unpack_roundtrip {α : Type} (neg : α → α) (zero : α)
    (packed : List α) (h2 : 2 ≤ packed.length) (he : packed.length % 2 = 0) :
    (unpackL neg zero packed).bind (packL zero) = some packed := by
  rw [unpackL, unpackRfft_eq neg zero packed h2 he]
  simp only [Option.map_some', Option.some_bind]
  rw [packL, packRfft_eq zero _ _ (by rw [length_map_range]; omega) rfl]
  simp only [Option.map_some']
  refine congrArg some (List.ext_getElem ?_ ?_)
  · rw [List.length_map, List.length_range, length_map_range]
  · intro i h1 hi
    rw [List.getElem_map, List.getElem_range]
    simp only [length_map_range]
    rw [pack_fold_apply zero _ _ 1 _ le_rfl i]
    by_cases hi0 : i = 0
    · subst hi0
      rw [if_neg (by omega), upd_other _ _ _ (by omega), upd_self,
        getD_map_range _ (show 0 < packed.length by omega) (zero, zero),
        unpack_values neg zero packed h2 he 0 (by omega), if_pos rfl,
        fst_pair]
      exact List.getD_eq_getElem packed zero hi
    · by_cases hi1 : i = 1
      · subst hi1
        rw [if_neg (by omega), upd_self,
          getD_map_range _ (show packed.length / 2 < packed.length by omega)
            (zero, zero),
          unpack_values neg zero packed h2 he (packed.length / 2) le_rfl,
          if_neg (by omega), if_pos rfl, fst_pair]
        exact List.getD_eq_getElem packed zero hi
      · rw [if_pos (by omega)]
        simp only [getD_map_range _ (show i / 2 < packed.length by omega)
            (zero, zero),
          unpack_values neg zero packed h2 he (i / 2) (by omega),
          if_neg (show ¬ i / 2 = 0 by omega),
          if_neg (show ¬ i / 2 = packed.length / 2 by omega)]
        by_cases hpar : i % 2 = 0
        · rw [if_pos hpar, (show 2 * (i / 2) = i by omega)]
          exact List.getD_eq_getElem packed zero hi
        · rw [if_neg hpar, (show 2 * (i / 2) + 1 = i by omega)]
          exact List.getD_eq_getElem packed zero hi

/-- C9 counterexample: the empty list has even length, yet the round trip
does not return it — `unpack_rfft_spectrum` panics on `packed[0]`
(modelled `none`), so "for every even-length packed spectrum" fails at
`P = []`. -/
theorem claim_c9_counterexample :
    ¬ ((unpackL satNeg (0 : ℤ) []).bind (packL 0) = some ([] : List ℤ)) := by
  decide

/-- C9 (amended to even length at least 2).  Unpacking a packed real
spectrum into a full Hermitian complex spectrum and packing it back
returns the input — *exactly*, for the float scalar (`ℚ`, exact negation)
and for the fixed scalar (`ℤ` store with the spec's saturating negation)
alike, since packing reads only the slots whose values were stored
verbatim; exactness in particular implies the claimed 1e-3 fixed
tolerance. -/
theorem claim_c9_pack_unpack_roundtrip (pf : List ℚ) (px : List ℤ)
    (hf2 : 2 ≤ pf.length) (hfe : pf.length % 2 = 0)
    (hx2 : 2 ≤ px.length) (hxe : px.length % 2 = 0) :
    (unpackL Neg.neg (0 : ℚ) pf).bind (packL 0) = some pf ∧
    (unpackL satNeg (0 : ℤ) px).bind (packL 0) = some px :=
  ⟨pack_unpack_roundtrip _ _ pf hf2 hfe, pack_unpack_roundtrip _ _ px hx2 hxe⟩

/-- C9 witness: the theorem at a concrete 4-point float spectrum and a
concrete 2-point fixed spectrum. -/
theorem claim_c9_pack_unpack_roundtrip_witness :
    (unpackL Neg.neg (0 : ℚ) [1, 2, 3, 4]).bind (packL 0) = some [1, 2, 3, 4] ∧
    (unpackL satNeg (0 : ℤ) [5, -7]).bind (packL 0) = some [5, -7] :=
  claim_c9_pack_unpack_roundtrip [1, 2, 3, 4] [5, -7]
    (by decide) (by decide) (by decide) (by decide)

end SimpleFft
